import Mathlib

set_option autoImplicit false

/-!
Shallow embedding of fixed-typed-arena's allocation, iteration and release
engine (`src/manually_drop.rs`, `src/chunk.rs`, `src/manually_drop/iter.rs`,
`src/arena.rs`, `src/options.rs`).

Machine pointers are modelled abstractly: a chunk is identified by a natural
number id (ids are never reused, which is faithful because every pointer
comparison in the source happens between pointers into allocations that are
live at comparison time, and live allocations are disjoint), and a pointer to
an item slot is the pair of a chunk id and a slot index.  The `Arc<()>`
identity tokens used by position support are modelled the same way, with a
global counter in the memory; `Arc::ptr_eq` between two live arcs is equality
of their ids.  Heap-allocation failure is an oracle `Bool` passed to the
operations that can allocate a chunk.
-/

/-- A pointer to an item slot, as returned by `ChunkRef::get`
    (`src/chunk.rs` lines 125-129): chunk identity plus slot index. -/
structure Ptr where
  chunk : Nat
  index : Nat
deriving DecidableEq

/-- One storage chunk (`struct Chunk` in `src/chunk.rs` lines 26-30):
    `C` item slots (uninitialized slots are `none`) and the forward link
    written by `ChunkRef::set_next`. -/
structure Chunk (α : Type) where
  slots : List (Option α)
  next : Option Nat
deriving DecidableEq

/-- The heap: chunk allocations by id (a deallocated chunk becomes `none`;
    ids are never reused) plus the counter handing out `Arc<()>` identity
    token ids. -/
structure Mem (α : Type) where
  chunks : List (Option (Chunk α))
  rcCount : Nat
deriving DecidableEq

/-- The empty heap. -/
def Mem.empty {α : Type} : Mem α := ⟨[], 0⟩

def Mem.getChunk {α : Type} (m : Mem α) (i : Nat) : Option (Chunk α) :=
  (m.chunks[i]?).join

def Mem.setChunk {α : Type} (m : Mem α) (i : Nat) (c : Option (Chunk α)) :
    Mem α :=
  { m with chunks := m.chunks.set i c }

/-- `ChunkRef::dealloc` (`src/chunk.rs` lines 112-116) repeatedly:
    free every chunk id in the list. -/
def Mem.freeAll {α : Type} (m : Mem α) (l : List Nat) : Mem α :=
  l.foldl (fun m c => m.setChunk c none) m

/-- `ChunkRef::new` (`src/chunk.rs` lines 58-78), success case: allocate a
    fresh chunk whose `C` slots are uninitialized and whose link is `None`,
    then, when `prev` is present, execute `prev.set_next(Some(chunk))`.
    Heap failure is decided by the caller's oracle before this is invoked.
    (`set_next` on a deallocated chunk cannot occur in reachable states; it
    is modelled as a no-op.) -/
def chunkNew {α : Type} (C : Nat) (m : Mem α) (prev : Option Nat) :
    Nat × Mem α :=
  let id := m.chunks.length
  let m1 : Mem α :=
    { m with chunks := m.chunks ++ [some ⟨List.replicate C none, none⟩] }
  match prev with
  | none => (id, m1)
  | some p =>
    match m1.getChunk p with
    | none => (id, m1)
    | some pc => (id, m1.setChunk p (some { pc with next := some id }))

/-- Writing a value through the pointer returned by `ChunkRef::get`
    (`src/manually_drop.rs` lines 145-150).  A write through a dangling
    chunk pointer cannot occur in reachable states; it is a no-op here. -/
def writeSlot {α : Type} (m : Mem α) (cid i : Nat) (v : α) : Mem α :=
  match m.getChunk cid with
  | none => m
  | some ch => m.setChunk cid (some { ch with slots := ch.slots.set i (some v) })

/-- Reading the item a slot pointer refers to (`none` when the chunk is
    deallocated or the slot uninitialized). -/
def readPtr {α : Type} (m : Mem α) (p : Ptr) : Option α :=
  (m.getChunk p.chunk).bind fun ch => (ch.slots[p.index]?).join

/-- `ManuallyDropArena`'s fields (`src/manually_drop.rs` lines 72-80).
    `rc` is the identity-token id.  The scope-bound `Arena`
    (`src/arena.rs` line 42) wraps this same state. -/
structure Arena where
  rc : Option Nat
  head : Option Nat
  tail : Option Nat
  tail_len : Nat
  len : Nat
deriving DecidableEq

/-- `ManuallyDropArena::new` (`src/manually_drop.rs` lines 92-101):
    `tail_len` starts at the chunk capacity. -/
def Arena.new (C : Nat) : Arena :=
  ⟨none, none, none, C, 0⟩

/-- Outcome of `ensure_free_space` (`src/manually_drop.rs` lines 103-125):
    the `assert!` panic when the chunk capacity is zero, the `Err` when
    chunk allocation fails (note that `self.tail.take()` has already
    cleared the tail reference on that path), or success. -/
inductive EnsureResult (α : Type) where
  | panic
  | fail (a : Arena) (m : Mem α)
  | ok (a : Arena) (m : Mem α)
deriving DecidableEq

/-- `ManuallyDropArena::ensure_free_space` (`src/manually_drop.rs`
    lines 103-125).  `allocOk` is the heap oracle for `ChunkRef::new`. -/
def ensureFreeSpace {α : Type} (C : Nat) (allocOk : Bool) (a : Arena)
    (m : Mem α) : EnsureResult α :=
  if C = 0 then .panic
  else if a.tail_len < C then .ok a m
  else if allocOk = false then .fail { a with tail := none } m
  else
    let r := chunkNew C m a.tail
    .ok { a with head := some (a.head.getD r.1), tail := some r.1,
                 tail_len := 0 } r.2

/-- `SupportsPositionsPriv::init_rc` for `Bool<true>`
    (`src/options.rs` lines 67-73): `rc.get_or_insert_with(Arc::default)`,
    handing out a fresh token id. -/
def initRc (rc : Option Nat) (cnt : Nat) : Option Nat × Nat :=
  match rc with
  | some r => (some r, cnt)
  | none => (some cnt, cnt + 1)

/-- Outcome of `try_alloc_ptr`: panic (capacity 0), `None` (heap failure),
    undefined behaviour (the `unreachable_unchecked`, which reachable
    states never hit), or success with the slot pointer. -/
inductive AllocResult (α : Type) where
  | panic
  | ub
  | fail (a : Arena) (m : Mem α)
  | ok (p : Ptr) (a : Arena) (m : Mem α)
deriving DecidableEq

/-- `ManuallyDropArena::try_alloc_ptr` (`src/manually_drop.rs`
    lines 133-155).  `sp` is `Options::SupportsPositions`
    (for `Bool<false>`, `init_rc` is the default no-op).
    `alloc`, `try_alloc`, `alloc_shared` and `try_alloc_shared`
    (lines 263-307), and the scope-bound `Arena` methods wrapping them
    (`src/arena.rs` lines 83-127), all delegate here. -/
def tryAllocPtr {α : Type} (C : Nat) (sp : Bool) (allocOk : Bool) (a : Arena)
    (m : Mem α) (v : α) : AllocResult α :=
  match ensureFreeSpace C allocOk a m with
  | .panic => .panic
  | .fail a1 m1 => .fail a1 m1
  | .ok a1 m1 =>
    let rcr := if sp then initRc a1.rc m1.rcCount else (a1.rc, m1.rcCount)
    let a2 : Arena := { a1 with rc := rcr.1 }
    let m2 : Mem α := { m1 with rcCount := rcr.2 }
    match a2.tail with
    | none => .ub
    | some t =>
      let m3 := writeSlot m2 t a2.tail_len v
      .ok ⟨t, a2.tail_len⟩
        { a2 with tail_len := a2.tail_len + 1, len := a2.len + 1 } m3

/-- A run of successful allocations: `some` collects the returned slot
    pointers, the final arena and the final memory; `none` if any step
    panics (it never does for positive capacity). -/
def allocAll {α : Type} (C : Nat) (sp : Bool) :
    List α → Arena → Mem α → Option (List Ptr × Arena × Mem α)
  | [], a, m => some ([], a, m)
  | v :: vs, a, m =>
    match tryAllocPtr C sp true a m v with
    | .ok p a1 m1 =>
      match allocAll C sp vs a1 m1 with
      | some (ps, a2, m2) => some (p :: ps, a2, m2)
      | none => none
    | _ => none

/-- `ManuallyDropArena::end` (`src/manually_drop.rs` lines 309-315):
    the exclusive end pointer, null (`none`) when there is no tail. -/
def Arena.endPtr (a : Arena) : Option Ptr :=
  a.tail.map fun t => ⟨t, a.tail_len⟩

/-- `IterPtr`'s fields (`src/manually_drop/iter.rs` lines 62-72);
    `endp` is the `end` pointer (null modelled as `none`). -/
structure IterPtr where
  chunk : Option Nat
  index : Nat
  endp : Option Ptr
  rc : Option Nat
deriving DecidableEq

/-- `ManuallyDropArena::iter_ptr` (`src/manually_drop.rs` lines 317-325),
    the common start state of `iter`, `iter_mut` and `into_iter`. -/
def arenaIter (a : Arena) : IterPtr :=
  ⟨a.head, 0, a.endPtr, a.rc⟩

/-- `Position` (`src/manually_drop/iter.rs` lines 38-42): raw chunk
    pointer, index, and identity-token copy. -/
structure Position where
  chunk : Option Nat
  index : Nat
  rc : Option Nat
deriving DecidableEq

/-- `IterPtr::as_position` (`src/manually_drop/iter.rs` lines 141-147),
    also `Iter::as_position` / `IterMut::as_position`. -/
def IterPtr.asPosition (it : IterPtr) : Position :=
  ⟨it.chunk, it.index, it.rc⟩

/-- `valid_rc_update` (`src/manually_drop.rs` lines 48-54);
    `Arc::ptr_eq` between live arcs is id equality. -/
def validRcUpdate (old new : Option Nat) : Bool :=
  match old, new with
  | some o, some n => o == n
  | some _, none => false
  | none, _ => true

/-- `ManuallyDropArena::iter_ptr_at` (`src/manually_drop.rs`
    lines 379-399): `none` models the `assert!` panic
    "`position` is not part of this arena"; used by `iter_at`,
    `iter_mut_at` and the `Arena` wrappers. -/
def iterPtrAt {α : Type} (a : Arena) (pos : Position) (_m : Mem α) :
    Option IterPtr :=
  if validRcUpdate pos.rc a.rc then
    some ⟨(pos.chunk.map some).getD a.head, pos.index, a.endPtr, a.rc⟩
  else
    none

/-- One call of `IterPtr::next` (`src/manually_drop/iter.rs` lines 95-124)
    for either `DROP` mode: the yielded slot pointer (if any), the updated
    iterator, and the updated memory (chunk deallocations happen only when
    `DROP` is true). -/
def iterNext {α : Type} (C : Nat) (DROP : Bool) (m : Mem α) (it : IterPtr) :
    Option Ptr × IterPtr × Mem α :=
  match it.chunk with
  | none => (none, it, m)
  | some cid =>
    let item : Ptr := ⟨cid, it.index⟩
    let isEnd : Bool := it.endp = some item
    if isEnd || C ≤ it.index then
      let nxt : Option Nat :=
        if isEnd then none else (m.getChunk cid).bind Chunk.next
      let it1 := if DROP || nxt.isSome then
        { it with index := 0, chunk := nxt } else it
      let m1 := if DROP then m.setChunk cid none else m
      match nxt with
      | none => (none, it1, m1)
      | some nid => (some ⟨nid, it1.index⟩,
          { it1 with index := it1.index + 1 }, m1)
    else
      (some item, { it with index := it.index + 1 }, m)

/-- Driving an iterator for at most `fuel` calls of `next`, stopping at the
    first `None`.  Each yielded element is recorded together with the item
    read through it (`Iter`/`IterMut` dereference it, `IntoIter` reads the
    value out, and the `Drop` impl of a `DROP` iterator runs
    `drop_in_place` on it, `src/manually_drop/iter.rs` lines 167-179). -/
def iterRun {α : Type} (C : Nat) (DROP : Bool) :
    Nat → Mem α → IterPtr → List (Ptr × Option α) × IterPtr × Mem α
  | 0, m, it => ([], it, m)
  | fuel + 1, m, it =>
    match iterNext C DROP m it with
    | (none, it1, m1) => ([], it1, m1)
    | (some p, it1, m1) =>
      let r := iterRun C DROP fuel m1 it1
      ((p, readPtr m1 p) :: r.1, r.2.1, r.2.2)

/-- The chunk-chain traversal of `ManuallyDropArena::drop`
    (`src/manually_drop.rs` lines 192-222): while the current chunk has a
    successor, drop all `C` of its items (`ChunkRef::drop_all`,
    `src/chunk.rs` lines 169-177, ascending index order) and deallocate it;
    the final chunk has its first `tailLen` items dropped and is then
    deallocated.  Returns the `drop_in_place`d slot pointers in order and
    the final memory.  `fuel` bounds the traversal (the chain is finite in
    reachable states). -/
def dropChain {α : Type} (C : Nat) :
    Nat → Nat → Nat → Mem α → List Ptr × Mem α
  | 0, _, _, m => ([], m)
  | fuel + 1, h, tailLen, m =>
    match (m.getChunk h).bind Chunk.next with
    | some nxt =>
      let d := (List.range C).map (Ptr.mk h)
      let r := dropChain C fuel nxt tailLen (m.setChunk h none)
      (d ++ r.1, r.2)
    | none => ((List.range tailLen).map (Ptr.mk h), m.setChunk h none)

/-- `ManuallyDropArena::drop` (`src/manually_drop.rs` lines 179-223), the
    release operation; `manually_drop` (lines 238-243) is an alias, and the
    scope-bound `Arena`'s `Drop` impl (`src/arena.rs` lines 228-234) calls
    exactly this.  When `head` is `None` it returns immediately; otherwise
    the state is reset to that of `Arena.new` and the chain is dropped. -/
def arenaDrop {α : Type} (C : Nat) (fuel : Nat) (a : Arena) (m : Mem α) :
    List Ptr × Arena × Mem α :=
  match a.head with
  | none => ([], a, m)
  | some h =>
    let r := dropChain C fuel h a.tail_len m
    (r.1, Arena.new C, r.2)

/-- Ordinary destruction of a `ManuallyDropArena` handle.  The type has no
    `Drop` impl (`src/manually_drop.rs`; the by-design leak is exercised by
    the `ensure_leaked` test): dropping the handle drops its fields, which
    are an optional `Arc<()>`, two optional raw chunk references (no `Drop`
    glue), and two integers — no item destructor runs and no chunk is
    freed.  Hence the handle drop yields no destroyed items and leaves the
    memory untouched. -/
def manualHandleForget {α : Type} (_a : Arena) (m : Mem α) :
    List Ptr × Mem α :=
  ([], m)

/-! ### Basic memory lemmas -/

theorem getChunk_lt {α : Type} {m : Mem α} {c : Nat} {ch : Chunk α}
    (h : m.getChunk c = some ch) : c < m.chunks.length := by
  by_contra hge
  rw [Mem.getChunk, List.getElem?_eq_none (Nat.le_of_not_lt hge)] at h
  simp [Option.join] at h

theorem getChunk_set_ne {α : Type} (m : Mem α) {c c' : Nat}
    (x : Option (Chunk α)) (h : c ≠ c') :
    (m.setChunk c x).getChunk c' = m.getChunk c' := by
  simp [Mem.setChunk, Mem.getChunk, List.getElem?_set_ne h]

theorem getChunk_set_self {α : Type} (m : Mem α) {c : Nat}
    (x : Option (Chunk α)) (h : c < m.chunks.length) :
    (m.setChunk c x).getChunk c = x := by
  simp [Mem.setChunk, Mem.getChunk, List.getElem?_set_self h]

theorem getChunk_set_none {α : Type} (m : Mem α) (c : Nat) :
    (m.setChunk c none).getChunk c = none := by
  by_cases h : c < m.chunks.length
  · rw [getChunk_set_self m none h]
  · rw [Mem.setChunk, Mem.getChunk]
    rw [List.getElem?_eq_none]
    · rfl
    · rw [List.length_set]; exact Nat.le_of_not_lt h

theorem getChunk_append {α : Type} {m : Mem α} {c : Nat}
    (l : List (Option (Chunk α))) (h : c < m.chunks.length) :
    Mem.getChunk { m with chunks := m.chunks ++ l } c = m.getChunk c := by
  simp only [Mem.getChunk, List.getElem?_append, if_pos h]

theorem getChunk_freeAll {α : Type} (l : List Nat) (m : Mem α) (c : Nat) :
    (m.freeAll l).getChunk c = if c ∈ l then none else m.getChunk c := by
  induction l generalizing m with
  | nil => simp [Mem.freeAll]
  | cons x xs ih =>
    have hstep : m.freeAll (x :: xs) = (m.setChunk x none).freeAll xs := rfl
    rw [hstep, ih]
    have hne : x ≠ c → (m.setChunk x none).getChunk c = m.getChunk c :=
      fun hxc => getChunk_set_ne m none hxc
    by_cases hcx : c = x
    · subst hcx
      by_cases hmem : c ∈ xs <;> simp [hmem, getChunk_set_none]
    · by_cases hmem : c ∈ xs <;>
        simp [hmem, hcx, hne (fun he => hcx he.symm)]

theorem freeAll_rcCount {α : Type} (l : List Nat) (m : Mem α) :
    (m.freeAll l).rcCount = m.rcCount := by
  induction l generalizing m with
  | nil => rfl
  | cons x xs ih => exact ih (m.setChunk x none)

theorem freeAll_append {α : Type} (l₁ l₂ : List Nat) (m : Mem α) :
    m.freeAll (l₁ ++ l₂) = (m.freeAll l₁).freeAll l₂ := by
  simp [Mem.freeAll, List.foldl_append]

/-! ### The chunk-chain representation predicate -/

/-- `chainSeg C m tailNext cids gs`: starting at the ids `cids`, the memory
holds a linked chunk segment; chunk `i` has capacity `C` and its initialized
prefix holds exactly the values `gs[i]`; every chunk but the last is full;
the last chunk's forward link is `tailNext` (the whole chain of an arena is
a segment with `tailNext = none`). -/
def chainSeg {α : Type} (C : Nat) (m : Mem α) (tailNext : Option Nat) :
    List Nat → List (List α) → Prop
  | [], gs => gs = []
  | cid :: cr, gs =>
    ∃ g gr ch, gs = g :: gr ∧
      m.getChunk cid = some ch ∧
      ch.slots.length = C ∧
      (∀ i, i < g.length → ch.slots[i]? = some (g[i]?)) ∧
      g.length ≤ C ∧
      ch.next = (cr.head?).or tailNext ∧
      (cr = [] ∨ g.length = C) ∧
      chainSeg C m tailNext cr gr

theorem chainSeg_length {α : Type} {C : Nat} {m : Mem α} {tn : Option Nat} :
    ∀ {cids : List Nat} {gs : List (List α)}, chainSeg C m tn cids gs →
      cids.length = gs.length := by
  intro cids
  induction cids with
  | nil =>
    intro gs h
    have h' : gs = [] := h
    subst h'
    rfl
  | cons c0 cr ih =>
    intro gs h
    obtain ⟨g, gr, ch, rfl, -, -, -, -, -, -, hrec⟩ := h
    simp [ih hrec]

theorem chainSeg_mem_lt {α : Type} {C : Nat} {m : Mem α} {tn : Option Nat} :
    ∀ {cids : List Nat} {gs : List (List α)}, chainSeg C m tn cids gs →
      ∀ c ∈ cids, c < m.chunks.length := by
  intro cids
  induction cids with
  | nil => intro gs _ c hc; simp at hc
  | cons c0 cr ih =>
    intro gs h c hc
    obtain ⟨g, gr, ch, rfl, hget, -, -, -, -, -, hrec⟩ := h
    rcases List.mem_cons.mp hc with rfl | hmem
    · exact getChunk_lt hget
    · exact ih hrec c hmem

theorem chainSeg_reads {α : Type} {C : Nat} {m m' : Mem α} {tn : Option Nat} :
    ∀ {cids : List Nat} {gs : List (List α)},
      (∀ c ∈ cids, m'.getChunk c = m.getChunk c) →
      chainSeg C m tn cids gs → chainSeg C m' tn cids gs := by
  intro cids
  induction cids with
  | nil => intro gs _ h; exact h
  | cons c0 cr ih =>
    intro gs hr h
    obtain ⟨g, gr, ch, rfl, hget, h1, h2, h3, h4, h5, hrec⟩ := h
    exact ⟨g, gr, ch, rfl, (hr c0 (List.mem_cons_self c0 cr)).trans hget,
      h1, h2, h3, h4, h5,
      ih (fun c hc => hr c (List.mem_cons_of_mem _ hc)) hrec⟩

theorem chainSeg_set_outside {α : Type} {C : Nat} {m : Mem α}
    {tn : Option Nat} {cids : List Nat} {gs : List (List α)} {c : Nat}
    (x : Option (Chunk α)) (hc : c ∉ cids) (h : chainSeg C m tn cids gs) :
    chainSeg C (m.setChunk c x) tn cids gs := by
  refine chainSeg_reads (fun c' hc' => ?_) h
  exact getChunk_set_ne m x (fun he => hc (he ▸ hc'))

theorem chainSeg_append_chunks {α : Type} {C : Nat} {m : Mem α}
    {tn : Option Nat} {cids : List Nat} {gs : List (List α)}
    (l : List (Option (Chunk α))) (h : chainSeg C m tn cids gs) :
    chainSeg C { m with chunks := m.chunks ++ l } tn cids gs := by
  refine chainSeg_reads (fun c' hc' => ?_) h
  exact getChunk_append l (chainSeg_mem_lt h c' hc')

theorem chainSeg_rcCount {α : Type} {C : Nat} {m : Mem α} {tn : Option Nat}
    {cids : List Nat} {gs : List (List α)} (n : Nat)
    (h : chainSeg C m tn cids gs) :
    chainSeg C { m with rcCount := n } tn cids gs :=
  @chainSeg_reads α C m { m with rcCount := n } tn cids gs
    (fun _ _ => rfl) h

theorem chainSeg_freeAll_outside {α : Type} {C : Nat} {m : Mem α}
    {tn : Option Nat} {cids : List Nat} {gs : List (List α)} {l : List Nat}
    (hl : ∀ c ∈ cids, c ∉ l) (h : chainSeg C m tn cids gs) :
    chainSeg C (m.freeAll l) tn cids gs := by
  refine chainSeg_reads (fun c hc => ?_) h
  rw [getChunk_freeAll, if_neg (hl c hc)]

theorem mem_of_getLast {α : Type} {l : List α} {a : α}
    (h : l.getLast? = some a) : a ∈ l := by
  rw [List.getLast?_eq_getElem?] at h
  exact List.getElem?_mem h

/-- Looking up one chunk of a whole chain. -/
theorem chainSeg_elem {α : Type} {C : Nat} {m : Mem α} :
    ∀ {cids : List Nat} {gs : List (List α)}, chainSeg C m none cids gs →
      ∀ (i : Nat) (c : Nat), cids[i]? = some c →
      ∃ ch g, m.getChunk c = some ch ∧ gs[i]? = some g ∧
        ch.slots.length = C ∧
        (∀ idx, idx < g.length → ch.slots[idx]? = some (g[idx]?)) ∧
        g.length ≤ C ∧ ch.next = cids[i + 1]? ∧
        (i + 1 < cids.length → g.length = C) := by
  intro cids
  induction cids with
  | nil => intro gs _ i c hc; simp at hc
  | cons c0 cr ih =>
    intro gs h i c hc
    obtain ⟨g, gr, ch, rfl, hget, hlen, hpre, hle, hnext, hfull, hrec⟩ := h
    match i with
    | 0 =>
      rw [List.getElem?_cons_zero] at hc
      obtain rfl : c0 = c := Option.some.inj hc
      refine ⟨ch, g, hget, List.getElem?_cons_zero, hlen, hpre, hle, ?_, ?_⟩
      · rw [hnext]; cases cr <;> simp
      · intro h1
        rcases hfull with hnil | hfull
        · subst hnil; simp at h1
        · exact hfull
    | i + 1 =>
      rw [List.getElem?_cons_succ] at hc
      obtain ⟨ch', g', h1, h2, h3, h4, h5, h6, h7⟩ := ih hrec i c hc
      refine ⟨ch', g', h1, ?_, h3, h4, h5, ?_, ?_⟩
      · rw [List.getElem?_cons_succ]; exact h2
      · rw [List.getElem?_cons_succ]; exact h6
      · intro hl
        refine h7 ?_
        simpa using hl

theorem chainSeg_all_full {α : Type} {C : Nat} {m : Mem α} :
    ∀ {cids : List Nat} {gs : List (List α)}, chainSeg C m none cids gs →
      (∀ g, gs.getLast? = some g → g.length = C) →
      ∀ g ∈ gs, g.length = C := by
  intro cids
  induction cids with
  | nil =>
    intro gs h _ g hg
    have h' : gs = [] := h
    subst h'
    simp at hg
  | cons c0 cr ih =>
    intro gs h hlast g hg
    obtain ⟨g0, gr, ch, rfl, -, -, -, -, -, hfull, hrec⟩ := h
    rcases List.mem_cons.mp hg with heq | hmem
    · rcases hfull with hnil | hfull
      · subst hnil
        have hgr0 : gr = [] := hrec
        subst hgr0
        rw [heq]
        exact hlast g0 (by simp)
      · rw [heq]; exact hfull
    · have hgr : gr ≠ [] := by
        intro hnil
        subst hnil
        simp at hmem
      refine ih hrec (fun g' hg' => hlast g' ?_) g hmem
      cases gr with
      | nil => exact absurd rfl hgr
      | cons g1 gr' => rw [List.getLast?_cons_cons]; exact hg'

/-- Re-pointing the last chunk's link at a fresh chunk
    (`prev.set_next(Some(chunk))` inside `ChunkRef::new`). -/
theorem chainSeg_retarget {α : Type} {C : Nat} {m : Mem α} {cl nid : Nat}
    {chl : Chunk α} :
    ∀ {cids : List Nat} {gs : List (List α)},
      chainSeg C m none cids gs → cids.Nodup →
      cids.getLast? = some cl → m.getChunk cl = some chl →
      chainSeg C (m.setChunk cl (some { chl with next := some nid }))
        (some nid) cids gs := by
  intro cids
  induction cids with
  | nil => intro gs _ _ hcl _; simp at hcl
  | cons c0 cr ih =>
    intro gs h hnd hcl hchl
    obtain ⟨g, gr, ch, rfl, hget, hlen, hpre, hle, hnext, hfull, hrec⟩ := h
    cases cr with
    | nil =>
      have hc0 : c0 = cl := by simpa using hcl
      subst hc0
      have hch : ch = chl := by rw [hget] at hchl; exact Option.some.inj hchl
      subst hch
      have hgr : gr = [] := hrec
      subst hgr
      exact ⟨g, [], { ch with next := some nid }, rfl,
        getChunk_set_self m _ (getChunk_lt hget), hlen, hpre, hle,
        by simp, Or.inl rfl, rfl⟩
    | cons c1 cr' =>
      rw [List.getLast?_cons_cons] at hcl
      have hne : c0 ≠ cl :=
        fun he => (List.nodup_cons.mp hnd).1 (he ▸ mem_of_getLast hcl)
      refine ⟨g, gr, ch, rfl, ?_, hlen, hpre, hle, ?_, hfull,
        ih hrec (List.nodup_cons.mp hnd).2 hcl hchl⟩
      · rw [getChunk_set_ne m _ (fun he => hne he.symm)]
        exact hget
      · rw [hnext]; simp

/-- Appending a freshly allocated, singly occupied chunk at the end of a
    chain whose previous tail is full. -/
theorem chainSeg_snoc {α : Type} {C : Nat} {m : Mem α} {nid : Nat}
    {chN : Chunk α} {v : α} :
    ∀ {cids : List Nat} {gs : List (List α)},
      chainSeg C m (some nid) cids gs →
      (∀ g ∈ gs, g.length = C) →
      m.getChunk nid = some chN → chN.slots.length = C →
      chN.slots[0]? = some (some v) → 1 ≤ C → chN.next = none →
      chainSeg C m none (cids ++ [nid]) (gs ++ [[v]]) := by
  intro cids
  induction cids with
  | nil =>
    intro gs h _ hget hlen h0 hC hnext
    have hgs : gs = [] := h
    subst hgs
    refine ⟨[v], [], chN, rfl, hget, hlen, ?_, hC, by simp [hnext],
      Or.inl rfl, rfl⟩
    intro i hi
    match i, hi with
    | 0, _ => simpa using h0
  | cons c0 cr ih =>
    intro gs h hfullg hget hlen h0 hC hnext
    obtain ⟨g, gr, ch, rfl, hget0, hlen0, hpre, hle, hnext0, hfull0, hrec⟩ := h
    refine ⟨g, gr ++ [[v]], ch, by simp, hget0, hlen0, hpre, hle, ?_, ?_,
      ih hrec (fun g' hg' => hfullg g' (List.mem_cons_of_mem _ hg')) hget
        hlen h0 hC hnext⟩
    · rw [hnext0]; cases cr <;> simp
    · exact Or.inr (hfullg g (List.mem_cons_self _ _))

/-- Writing a value into the first free slot of a non-full tail chunk. -/
theorem chainSeg_set_tail_slot {α : Type} {C : Nat} {m : Mem α}
    {cl : Nat} {chl : Chunk α} {v : α} :
    ∀ {cids : List Nat} {gs : List (List α)} {g : List α},
      chainSeg C m none cids gs → cids.Nodup →
      cids.getLast? = some cl → gs.getLast? = some g →
      m.getChunk cl = some chl → g.length < C →
      chainSeg C
        (m.setChunk cl
          (some { chl with slots := chl.slots.set g.length (some v) }))
        none cids (gs.dropLast ++ [g ++ [v]]) := by
  intro cids
  induction cids with
  | nil => intro gs g _ _ hcl _ _ _; simp at hcl
  | cons c0 cr ih =>
    intro gs g h hnd hcl hg hchl hlt
    obtain ⟨g0, gr, ch, rfl, hget, hlen, hpre, hle, hnext, hfull, hrec⟩ := h
    cases cr with
    | nil =>
      have hc0 : c0 = cl := by simpa using hcl
      subst hc0
      have hch : ch = chl := by rw [hget] at hchl; exact Option.some.inj hchl
      subst hch
      have hgr : gr = [] := hrec
      subst hgr
      have hgg : g0 = g := by simpa using hg
      subst hgg
      refine ⟨g0 ++ [v], [], { ch with slots := ch.slots.set g0.length (some v) },
        by simp, ?_, ?_, ?_, ?_, ?_, Or.inl rfl, rfl⟩
      · exact getChunk_set_self m _ (getChunk_lt hget)
      · rw [List.length_set]; exact hlen
      · intro i hi
        have hi' : i < g0.length + 1 := by simpa using hi
        rcases Nat.lt_succ_iff_lt_or_eq.mp hi' with hlt' | heq
        · rw [List.getElem?_set_ne (Nat.ne_of_gt hlt'), hpre i hlt']
          rw [List.getElem?_append, if_pos hlt']
        · subst heq
          rw [List.getElem?_set_self (hlen ▸ hlt),
            List.getElem?_concat_length]
      · simpa using Nat.succ_le_of_lt hlt
      · simpa using hnext
    | cons c1 cr' =>
      rw [List.getLast?_cons_cons] at hcl
      have hgr : gr ≠ [] := by
        intro hnil
        have := chainSeg_length hrec
        rw [hnil] at this
        simp at this
      cases gr with
      | nil => exact absurd rfl hgr
      | cons g1 gr' =>
        rw [List.getLast?_cons_cons] at hg
        refine ⟨g0, (g1 :: gr').dropLast ++ [g ++ [v]], ch,
          by rw [List.dropLast_cons₂]; simp, ?_, hlen, hpre, hle, ?_, ?_,
          ih hrec (List.nodup_cons.mp hnd).2 hcl hg hchl hlt⟩
        · have hne : c0 ≠ cl :=
            fun he => (List.nodup_cons.mp hnd).1 (he ▸ mem_of_getLast hcl)
          rw [getChunk_set_ne m _ (fun he => hne he.symm)]
          exact hget
        · exact hnext
        · exact Or.inr (hfull.resolve_left (by simp))

/-! ### The expected traversal sequence of a chain -/

/-- The `d` slot pointers of chunk `c` starting at slot `j`, each paired
    with the group value it holds. -/
def slotPairs {α : Type} (c : Nat) (g : List α) :
    Nat → Nat → List (Ptr × Option α)
  | _, 0 => []
  | j, d + 1 => (⟨c, j⟩, g[j]?) :: slotPairs c g (j + 1) d

/-- All occupied slots of a chain in traversal order, with their values. -/
def chainPairs {α : Type} : List Nat → List (List α) → List (Ptr × Option α)
  | c :: cr, g :: gr => slotPairs c g 0 g.length ++ chainPairs cr gr
  | _, _ => []

/-- Total number of items described by the groups. -/
def sumLen {α : Type} (gs : List (List α)) : Nat := (gs.map List.length).sum

theorem slotPairs_length {α : Type} (c : Nat) (g : List α) :
    ∀ (d j : Nat), (slotPairs c g j d).length = d
  | 0, _ => rfl
  | d + 1, j => by simp [slotPairs, slotPairs_length c g d (j + 1)]

theorem chainPairs_length {α : Type} :
    ∀ {cids : List Nat} {gs : List (List α)}, cids.length = gs.length →
      (chainPairs cids gs).length = sumLen gs := by
  intro cids
  induction cids with
  | nil =>
    intro gs h
    cases gs with
    | nil => rfl
    | cons g gr => simp at h
  | cons c0 cr ih =>
    intro gs h
    cases gs with
    | nil => simp at h
    | cons g gr =>
      simp only [chainPairs, List.length_append, slotPairs_length,
        sumLen, List.map_cons, List.sum_cons]
      rw [ih (by simpa using h)]
      rfl

theorem slotPairs_get {α : Type} (c : Nat) (g : List α) :
    ∀ (d j k : Nat), k < d →
      (slotPairs c g j d)[k]? = some (⟨c, j + k⟩, g[j + k]?)
  | 0, _, k, hk => absurd hk (Nat.not_lt_zero k)
  | d + 1, j, 0, _ => by simp [slotPairs]
  | d + 1, j, k + 1, hk => by
    rw [slotPairs, List.getElem?_cons_succ,
      slotPairs_get c g d (j + 1) k (Nat.lt_of_succ_lt_succ hk)]
    have : j + 1 + k = j + (k + 1) := by omega
    rw [this]

theorem slotPairs_mem {α : Type} (c : Nat) (g : List α) :
    ∀ (d j : Nat) (pv : Ptr × Option α), pv ∈ slotPairs c g j d →
      pv.1.chunk = c ∧ j ≤ pv.1.index ∧ pv.1.index < j + d
  | 0, _, _, h => absurd h (List.not_mem_nil _)
  | d + 1, j, pv, h => by
    rcases List.mem_cons.mp h with rfl | h
    · exact ⟨rfl, Nat.le_refl j, show j < j + (d + 1) by omega⟩
    · obtain ⟨h1, h2, h3⟩ := slotPairs_mem c g d (j + 1) pv h
      exact ⟨h1, by omega, by omega⟩

theorem slotPairs_fst {α : Type} (c : Nat) (g : List α) :
    ∀ (d j : Nat),
      (slotPairs c g j d).map Prod.fst = (List.range' j d).map (Ptr.mk c)
  | 0, _ => rfl
  | d + 1, j => by
    rw [List.range'_succ]
    simp [slotPairs, slotPairs_fst c g d (j + 1)]

theorem slotPairs_snd {α : Type} (c : Nat) (g : List α) :
    ∀ (d j : Nat), j + d = g.length →
      (slotPairs c g j d).map Prod.snd = (g.drop j).map some
  | 0, j, h => by
    have : j = g.length := by omega
    subst this
    simp [slotPairs]
  | d + 1, j, h => by
    have hj : j < g.length := by omega
    rw [List.drop_eq_getElem_cons hj]
    simp only [slotPairs, List.map_cons]
    rw [slotPairs_snd c g d (j + 1) (by omega), List.getElem?_eq_getElem hj]

theorem slotPairs_congr {α : Type} {c : Nat} {g1 g2 : List α} :
    ∀ (d j : Nat), (∀ i, j ≤ i → i < j + d → g1[i]? = g2[i]?) →
      slotPairs c g1 j d = slotPairs c g2 j d
  | 0, _, _ => rfl
  | d + 1, j, h => by
    rw [slotPairs, slotPairs, h j (Nat.le_refl j) (by omega),
      slotPairs_congr d (j + 1) (fun i h1 h2 => h i (by omega) (by omega))]

theorem slotPairs_split {α : Type} (c : Nat) (g : List α) :
    ∀ (d1 d2 j : Nat),
      slotPairs c g j (d1 + d2) = slotPairs c g j d1 ++ slotPairs c g (j + d1) d2
  | 0, d2, j => by simp [slotPairs]
  | d1 + 1, d2, j => by
    have h : d1 + 1 + d2 = (d1 + d2) + 1 := by omega
    rw [h, slotPairs, slotPairs, slotPairs_split c g d1 d2 (j + 1)]
    simp only [List.cons_append]
    have h2 : j + 1 + d1 = j + (d1 + 1) := by omega
    rw [h2]

theorem chainPairs_append {α : Type} :
    ∀ {c1 : List Nat} {g1 : List (List α)} (c2 : List Nat)
      (g2 : List (List α)), c1.length = g1.length →
      chainPairs (c1 ++ c2) (g1 ++ g2) = chainPairs c1 g1 ++ chainPairs c2 g2 := by
  intro c1
  induction c1 with
  | nil =>
    intro g1 c2 g2 h
    cases g1 with
    | nil => rfl
    | cons g gr => simp at h
  | cons c0 cr ih =>
    intro g1 c2 g2 h
    cases g1 with
    | nil => simp at h
    | cons g gr =>
      simp only [List.cons_append, chainPairs, List.append_eq]
      rw [@ih gr c2 g2 (by simpa using h), List.append_assoc]

theorem chainPairs_chunkMem {α : Type} :
    ∀ {cids : List Nat} {gs : List (List α)} (pv : Ptr × Option α),
      pv ∈ chainPairs cids gs → pv.1.chunk ∈ cids := by
  intro cids
  induction cids with
  | nil => intro gs pv h; cases gs <;> simp [chainPairs] at h
  | cons c0 cr ih =>
    intro gs pv h
    cases gs with
    | nil => simp [chainPairs] at h
    | cons g gr =>
      rcases List.mem_append.mp h with h | h
      · exact (slotPairs_mem c0 g _ _ pv h).1 ▸ List.mem_cons_self _ _
      · exact List.mem_cons_of_mem _ (ih pv h)

theorem chainPairs_fst_nodup {α : Type} :
    ∀ {cids : List Nat} {gs : List (List α)}, cids.Nodup →
      ((chainPairs cids gs).map Prod.fst).Nodup := by
  intro cids
  induction cids with
  | nil => intro gs _; cases gs <;> simp [chainPairs]
  | cons c0 cr ih =>
    intro gs hnd
    cases gs with
    | nil => simp [chainPairs]
    | cons g gr =>
      rw [chainPairs, List.map_append, List.nodup_append]
      refine ⟨?_, ih (List.nodup_cons.mp hnd).2, ?_⟩
      · rw [slotPairs_fst]
        refine List.Nodup.map ?_ (List.nodup_range' 0 g.length)
        intro a b hab
        exact congrArg Ptr.index hab
      · intro p hp hq
        obtain ⟨pv, hpv, rfl⟩ := List.mem_map.mp hp
        obtain ⟨qv, hqv, hq2⟩ := List.mem_map.mp hq
        have h1 : pv.1.chunk = c0 := (slotPairs_mem c0 g _ _ pv hpv).1
        have h2 : qv.1.chunk ∈ cr := chainPairs_chunkMem qv hqv
        rw [hq2, h1] at h2
        exact (List.nodup_cons.mp hnd).1 h2

theorem chainPairs_snd {α : Type} :
    ∀ {cids : List Nat} {gs : List (List α)}, cids.length = gs.length →
      (chainPairs cids gs).map Prod.snd = gs.flatten.map some := by
  intro cids
  induction cids with
  | nil =>
    intro gs h
    cases gs with
    | nil => rfl
    | cons g gr => simp at h
  | cons c0 cr ih =>
    intro gs h
    cases gs with
    | nil => simp at h
    | cons g gr =>
      rw [chainPairs, List.map_append, ih (by simpa using h),
        slotPairs_snd c0 g g.length 0 (by omega)]
      simp

theorem chainPairs_get {α : Type} {C : Nat} :
    ∀ {cids : List Nat} {gs : List (List α)},
      cids.length = gs.length →
      (∀ i g, i + 1 < gs.length → gs[i]? = some g → g.length = C) →
      ∀ (i c : Nat) (g : List α) (j : Nat), cids[i]? = some c →
        gs[i]? = some g → j < g.length →
        (chainPairs cids gs)[i * C + j]? = some (⟨c, j⟩, g[j]?) := by
  intro cids
  induction cids with
  | nil => intro gs _ _ i c g j hc _ _; simp at hc
  | cons c0 cr ih =>
    intro gs hlen hfull i c g j hc hg hj
    cases gs with
    | nil => simp at hlen
    | cons g0 gr =>
      match i with
      | 0 =>
        rw [List.getElem?_cons_zero] at hc hg
        obtain rfl : c0 = c := Option.some.inj hc
        obtain rfl : g0 = g := Option.some.inj hg
        rw [chainPairs, List.getElem?_append, Nat.zero_mul, Nat.zero_add,
          if_pos (by rw [slotPairs_length]; exact hj),
          slotPairs_get c0 g0 g0.length 0 j hj, Nat.zero_add]
      | i + 1 =>
        rw [List.getElem?_cons_succ] at hc hg
        have hg0 : g0.length = C := by
          refine hfull 0 g0 ?_ List.getElem?_cons_zero
          have : i < cr.length := (List.getElem?_eq_some.mp hc).1
          have hlen' : cr.length = gr.length := by simpa using hlen
          simp
          omega
        rw [chainPairs, List.getElem?_append_right
          (by rw [slotPairs_length, hg0, Nat.succ_mul]; omega)]
        rw [slotPairs_length, hg0]
        have harith : (i + 1) * C + j - C = i * C + j := by
          rw [Nat.succ_mul]; omega
        rw [harith]
        refine ih (by simpa using hlen) ?_ i c g j hc hg hj
        intro i' g' hi' hg'
        refine hfull (i' + 1) g' (by simpa using hi') ?_
        rw [List.getElem?_cons_succ]
        exact hg'

/-- Appending one value at the end of the last, non-full group appends one
    pair at the end of the traversal sequence. -/
theorem chainPairs_grow_tail {α : Type} {cl : Nat} {g : List α} {v : α} :
    ∀ {cids : List Nat} {gs : List (List α)}, cids.length = gs.length →
      cids.getLast? = some cl → gs.getLast? = some g →
      chainPairs cids (gs.dropLast ++ [g ++ [v]]) =
        chainPairs cids gs ++ [(⟨cl, g.length⟩, some v)] := by
  intro cids
  induction cids with
  | nil => intro gs _ hcl _; simp at hcl
  | cons c0 cr ih =>
    intro gs hlen hcl hg
    cases gs with
    | nil => simp at hlen
    | cons g0 gr =>
      cases cr with
      | nil =>
        have hgr : gr = [] := by
          have := hlen
          simp at this
          exact this
        subst hgr
        have hc0 : c0 = cl := by simpa using hcl
        have hg0 : g0 = g := by simpa using hg
        subst hc0
        subst hg0
        show chainPairs [c0] ([g0 ++ [v]]) = _
        rw [chainPairs, chainPairs]
        have hsp : slotPairs c0 (g0 ++ [v]) 0 (g0 ++ [v]).length =
            slotPairs c0 g0 0 g0.length ++ [(⟨c0, g0.length⟩, some v)] := by
          have hL : (g0 ++ [v]).length = g0.length + 1 := by simp
          rw [hL, slotPairs_split c0 (g0 ++ [v]) g0.length 1 0]
          congr 1
          · refine slotPairs_congr g0.length 0 (fun i h1 h2 => ?_)
            rw [List.getElem?_append, if_pos (by omega)]
          · simp [slotPairs, List.getElem?_concat_length]
        rw [hsp]
        simp [chainPairs]
      | cons c1 cr' =>
        have hgr : gr ≠ [] := by
          intro hnil
          rw [hnil] at hlen
          simp at hlen
        cases gr with
        | nil => exact absurd rfl hgr
        | cons g1 gr' =>
          rw [List.getLast?_cons_cons] at hcl
          rw [List.getLast?_cons_cons] at hg
          rw [List.dropLast_cons₂]
          show chainPairs (c0 :: c1 :: cr')
              (g0 :: ((g1 :: gr').dropLast ++ [g ++ [v]])) = _
          rw [chainPairs, chainPairs,
            ih (by simpa using hlen) hcl hg, ← List.append_assoc]

/-! ### Arena representation and allocation -/

/-- Ceiling division, as used by the spec: `⌈N / C⌉`. -/
def ceilDiv (N C : Nat) : Nat := (N + C - 1) / C

/-- The length of the last group, `C` when there is none: this is exactly
    the `tail_len` the arena maintains. -/
def lastLen {α : Type} (C : Nat) (gs : List (List α)) : Nat :=
  (gs.getLast?).elim C List.length

/-- `RepW C a m xs cids gs`: the arena state `a` over memory `m` holds the
    values `xs`, laid out in the chunk chain `cids` with per-chunk contents
    `gs`.  This sharpens the invariant documented at
    `src/manually_drop.rs` lines 56-62 with the explicit chain. -/
def RepW {α : Type} (C : Nat) (a : Arena) (m : Mem α) (xs : List α)
    (cids : List Nat) (gs : List (List α)) : Prop :=
  chainSeg C m none cids gs ∧
  gs.flatten = xs ∧
  cids.Nodup ∧
  a.head = cids.head? ∧
  a.tail = cids.getLast? ∧
  a.tail_len = lastLen C gs ∧
  a.len = xs.length ∧
  (∀ g, gs.getLast? = some g → g ≠ [])

theorem RepW_new {α : Type} (C : Nat) (m : Mem α) :
    RepW C (Arena.new C) m [] [] [] := by
  refine ⟨rfl, rfl, List.nodup_nil, rfl, rfl, rfl, rfl, ?_⟩
  intro g hg
  simp at hg

theorem eq_dropLast_concat {α : Type} {l : List α} {x : α}
    (h : l.getLast? = some x) : l.dropLast ++ [x] = l := by
  have hne : l ≠ [] := by
    intro h0
    subst h0
    simp at h
  have h2 := List.getLast?_eq_getLast l hne
  rw [h2] at h
  rw [← Option.some.inj h]
  exact List.dropLast_append_getLast hne

theorem writeSlot_eq {α : Type} {m : Mem α} {cid : Nat} {ch : Chunk α}
    (i : Nat) (v : α) (h : m.getChunk cid = some ch) :
    writeSlot m cid i v =
      m.setChunk cid (some { ch with slots := ch.slots.set i (some v) }) := by
  unfold writeSlot
  rw [h]

theorem getChunk_concat_new {α : Type} (m : Mem α) (ch : Chunk α) :
    Mem.getChunk { m with chunks := m.chunks ++ [some ch] }
      m.chunks.length = some ch := by
  unfold Mem.getChunk
  dsimp only
  rw [List.getElem?_concat_length]
  rfl

theorem ensureFreeSpace_hasRoom {α : Type} {C : Nat} (ok : Bool) {a : Arena}
    (m : Mem α) (hC : C ≠ 0) (hlt : a.tail_len < C) :
    ensureFreeSpace C ok a m = .ok a m := by
  unfold ensureFreeSpace
  rw [if_neg hC, if_pos hlt]

theorem ensureFreeSpace_grow {α : Type} {C : Nat} {a : Arena}
    (m : Mem α) (hC : C ≠ 0) (hge : ¬ a.tail_len < C) :
    ensureFreeSpace C true a m =
      .ok { a with head := some (a.head.getD (chunkNew C m a.tail).1),
                   tail := some (chunkNew C m a.tail).1, tail_len := 0 }
        (chunkNew C m a.tail).2 := by
  unfold ensureFreeSpace
  rw [if_neg hC, if_neg hge, if_neg (by simp)]

theorem ensureFreeSpace_noRoom {α : Type} {C : Nat} {a : Arena}
    (m : Mem α) (hC : C ≠ 0) (hge : ¬ a.tail_len < C) :
    ensureFreeSpace C false a m = .fail { a with tail := none } m := by
  unfold ensureFreeSpace
  rw [if_neg hC, if_neg hge, if_pos rfl]

theorem tryAllocPtr_ok {α : Type} {C : Nat} (sp : Bool) {ok : Bool} {a : Arena}
    {m : Mem α} {a1 : Arena} {m1 : Mem α} (v : α) {t : Nat}
    (hens : ensureFreeSpace C ok a m = .ok a1 m1)
    (ht : a1.tail = some t) :
    tryAllocPtr C sp ok a m v =
      .ok ⟨t, a1.tail_len⟩
        { a1 with
            rc := (if sp then initRc a1.rc m1.rcCount else (a1.rc, m1.rcCount)).1,
            tail_len := a1.tail_len + 1, len := a1.len + 1 }
        (writeSlot
          { m1 with rcCount :=
              (if sp then initRc a1.rc m1.rcCount else (a1.rc, m1.rcCount)).2 }
          t a1.tail_len v) := by
  unfold tryAllocPtr
  rw [hens]
  dsimp only
  rw [ht]

theorem chunkNew_some {α : Type} (C : Nat) (m : Mem α) {p : Nat}
    {pc : Chunk α}
    (hp : Mem.getChunk
      { m with chunks := m.chunks ++ [some ⟨List.replicate C none, none⟩] } p
      = some pc) :
    chunkNew C m (some p) =
      (m.chunks.length,
       Mem.setChunk
         { m with chunks := m.chunks ++ [some ⟨List.replicate C none, none⟩] }
         p (some { pc with next := some m.chunks.length })) := by
  unfold chunkNew
  dsimp only
  rw [hp]

theorem chainSeg_groups_le {α : Type} {C : Nat} {m : Mem α}
    {cids : List Nat} {gs : List (List α)} (h : chainSeg C m none cids gs) :
    ∀ (i : Nat) (g : List α), gs[i]? = some g →
      g.length ≤ C ∧ (i + 1 < gs.length → g.length = C) := by
  intro i g hg
  have hlen := chainSeg_length h
  have hi : i < gs.length := (List.getElem?_eq_some.mp hg).1
  have hci : cids[i]? = some cids[i] := List.getElem?_eq_getElem (by omega)
  obtain ⟨ch, g', -, hg', -, -, hle, -, hfull⟩ := chainSeg_elem h i _ hci
  obtain rfl : g' = g := by rw [hg] at hg'; exact (Option.some.inj hg').symm
  exact ⟨hle, fun h2 => hfull (by omega)⟩

/-- One successful allocation starting from a represented state: the shape
    of `try_alloc_ptr`'s success, the updated representation, and how the
    chain, the traversal sequence and the identity token evolve. -/
theorem tryAlloc_rep {α : Type} {C : Nat} (hC : 1 ≤ C) (sp : Bool) (v : α)
    {a : Arena} {m : Mem α} {xs : List α} {cids : List Nat}
    {gs : List (List α)} (h : RepW C a m xs cids gs) :
    ∃ p a1 m1 cids1 gs1,
      tryAllocPtr C sp true a m v = .ok p a1 m1 ∧
      RepW C a1 m1 (xs ++ [v]) cids1 gs1 ∧
      (∃ e, cids1 = cids ++ e ∧
        m1.chunks.length = m.chunks.length + e.length) ∧
      gs.length ≤ gs1.length ∧
      (∀ (i : Nat) (g : List α), gs[i]? = some g →
        ∃ g1 : List α, gs1[i]? = some g1 ∧ g.length ≤ g1.length) ∧
      chainPairs cids1 gs1 = chainPairs cids gs ++ [(p, some v)] ∧
      (∀ r, a.rc = some r → a1.rc = some r ∧ m1.rcCount = m.rcCount) ∧
      (sp = false → a1.rc = a.rc ∧ m1.rcCount = m.rcCount) ∧
      (a.rc = none → sp = true →
        a1.rc = some m.rcCount ∧ m1.rcCount = m.rcCount + 1) ∧
      (sp = true → a1.rc.isSome) := by
  obtain ⟨hchain, hflat, hnd, hhead, htail, htl, hlen, hlast⟩ := h
  have hclen := chainSeg_length hchain
  by_cases hlt : a.tail_len < C
  · -- room in the existing tail chunk
    have hgsne : gs ≠ [] := by
      intro h0
      rw [h0] at htl
      have h1 : a.tail_len = C := htl
      omega
    obtain ⟨g, hg⟩ : ∃ g, gs.getLast? = some g := by
      cases hq : gs.getLast? with
      | none => exact absurd (List.getLast?_eq_none_iff.mp hq) hgsne
      | some g => exact ⟨g, rfl⟩
    have htl' : a.tail_len = g.length := by
      rw [htl]
      unfold lastLen
      rw [hg]
      rfl
    have hglt : g.length < C := by omega
    have hcne : cids ≠ [] := by
      intro h0
      rw [h0] at hclen
      exact hgsne (List.length_eq_zero.mp hclen.symm)
    obtain ⟨cl, hcl⟩ : ∃ cl, cids.getLast? = some cl := by
      cases hq : cids.getLast? with
      | none => exact absurd (List.getLast?_eq_none_iff.mp hq) hcne
      | some cl => exact ⟨cl, rfl⟩
    have hidx : cids[cids.length - 1]? = some cl := by
      rw [← List.getLast?_eq_getElem?]
      exact hcl
    obtain ⟨chl, gL, hchl, -, -, -, -, -, -⟩ :=
      chainSeg_elem hchain _ cl hidx
    have htailcl : a.tail = some cl := by rw [htail]; exact hcl
    have hens := ensureFreeSpace_hasRoom true m (by omega) hlt
    have hstep := tryAllocPtr_ok sp v hens htailcl
    have hchl2 : Mem.getChunk
        { m with rcCount :=
          (if sp then initRc a.rc m.rcCount else (a.rc, m.rcCount)).2 } cl
        = some chl := hchl
    rw [writeSlot_eq a.tail_len v hchl2, htl'] at hstep
    have hsplit : gs.dropLast ++ [g] = gs := eq_dropLast_concat hg
    refine ⟨⟨cl, g.length⟩, _, _, cids, gs.dropLast ++ [g ++ [v]], hstep,
      ⟨?_, ?_, hnd, hhead, ?_, ?_, ?_, ?_⟩, ⟨[], ?_, ?_⟩, ?_, ?_, ?_,
      ?_, ?_, ?_, ?_⟩
    · exact chainSeg_set_tail_slot (chainSeg_rcCount _ hchain) hnd hcl hg
        hchl2 hglt
    · -- flatten
      have h1 : gs.dropLast.flatten ++ g = gs.flatten := by
        conv_rhs => rw [← hsplit]
        rw [List.flatten_append]
        simp
      rw [List.flatten_append, ← hflat, ← h1]
      simp [List.append_assoc]
    · exact htailcl.trans hcl.symm |>.symm ▸ htail
    · unfold lastLen
      rw [List.getLast?_concat]
      simp
    · rw [hlen]
      simp
    · intro g' hg'
      rw [List.getLast?_concat] at hg'
      rw [← Option.some.inj hg']
      simp
    · rw [List.append_nil]
    · simp [Mem.setChunk]
    · have hpos := List.length_pos_of_ne_nil hgsne
      rw [List.length_append, List.length_dropLast]
      simp
      omega
    · intro i g' hgi
      by_cases hi : i < gs.dropLast.length
      · refine ⟨g', ?_, Nat.le_refl _⟩
        rw [List.getElem?_append, if_pos hi]
        rw [← hsplit, List.getElem?_append, if_pos hi] at hgi
        exact hgi
      · have hi2 : i < gs.length := (List.getElem?_eq_some.mp hgi).1
        have hlen2 : gs.length = gs.dropLast.length + 1 := by
          conv_lhs => rw [← hsplit]
          simp
        have hieq : i = gs.dropLast.length := by omega
        have hg2 : g' = g := by
          rw [← hsplit] at hgi
          rw [hieq, List.getElem?_concat_length] at hgi
          exact (Option.some.inj hgi).symm
        subst hg2
        refine ⟨g' ++ [v], ?_, by simp⟩
        rw [hieq, List.getElem?_concat_length]
    · exact chainPairs_grow_tail hclen hcl hg
    · intro r hr
      cases sp <;> simp [hr, initRc, Mem.setChunk]
    · intro hsp
      subst hsp
      simp [Mem.setChunk]
    · intro hrc hsp
      subst hsp
      simp [hrc, initRc, Mem.setChunk]
    · intro hsp
      subst hsp
      cases hrc : a.rc <;> simp [hrc, initRc]
  · -- the tail is full (or absent): a new chunk is allocated
    have hnid : ∀ c ∈ cids, c < m.chunks.length := chainSeg_mem_lt hchain
    rcases hgq : gs.getLast? with _ | g
    · -- no chunks yet: `head` is also set to the fresh chunk
      have hgs : gs = [] := List.getLast?_eq_none_iff.mp hgq
      subst hgs
      have hcids : cids = [] := List.length_eq_zero.mp hclen
      subst hcids
      have hxs : xs = [] := by rw [← hflat]; rfl
      subst hxs
      have hens := ensureFreeSpace_grow m (by omega) hlt
      rw [show a.tail = none from htail] at hens
      rw [show a.head = none from hhead] at hens
      have hcn : chunkNew C m none =
          (m.chunks.length,
           { m with chunks :=
              m.chunks ++ [some ⟨List.replicate C none, none⟩] }) := rfl
      rw [hcn] at hens
      simp only [Option.getD_none] at hens
      have hstep := tryAllocPtr_ok sp v hens rfl
      dsimp only at hstep
      have hwget : ∀ RC : Nat,
          Mem.getChunk
            { chunks := m.chunks ++ [some ⟨List.replicate C none, none⟩],
              rcCount := RC } m.chunks.length
            = some (⟨List.replicate C none, none⟩ : Chunk α) := by
        intro RC
        show Mem.getChunk
          { (⟨m.chunks ++ [some ⟨List.replicate C none, none⟩], RC⟩ : Mem α)
            with chunks := m.chunks ++ [some ⟨List.replicate C none, none⟩] }
          m.chunks.length = _
        unfold Mem.getChunk
        dsimp only
        rw [List.getElem?_concat_length]
        rfl
      rw [writeSlot_eq 0 v (hwget _)] at hstep
      have hgetF : ∀ RC : Nat,
          Mem.getChunk
            (Mem.setChunk
              { chunks := m.chunks ++ [some ⟨List.replicate C none, none⟩],
                rcCount := RC } m.chunks.length
              (some ⟨(List.replicate C none).set 0 (some v), none⟩))
            m.chunks.length
            = some (⟨(List.replicate C none).set 0 (some v), none⟩ :
                Chunk α) := by
        intro RC
        refine getChunk_set_self _ _ ?_
        simp
      refine ⟨⟨m.chunks.length, 0⟩, _, _, [m.chunks.length], [[v]], hstep,
        ⟨?_, ?_, ?_, rfl, rfl, ?_, ?_, ?_⟩, ⟨[m.chunks.length], by simp, ?_⟩,
        ?_, ?_, ?_, ?_, ?_, ?_, ?_⟩
      · refine ⟨[v], [], ⟨(List.replicate C none).set 0 (some v), none⟩,
          rfl, hgetF _, ?_, ?_, ?_, ?_, Or.inl rfl, rfl⟩
        · simp
        · intro i hi
          match i, hi with
          | 0, _ =>
            rw [List.getElem?_set_self (by simpa using hC)]
            rfl
        · simpa using hC
        · rfl
      · rfl
      · simp
      · simp [lastLen]
      · rw [show a.len = 0 from hlen]
        rfl
      · intro g' hg'
        simp at hg'
        subst hg'
        simp
      · simp [Mem.setChunk]
      · simp
      · intro i g' hgi
        simp at hgi
      · simp [chainPairs, slotPairs]
      · intro r hr
        cases sp <;> simp [hr, initRc, Mem.setChunk]
      · intro hsp
        subst hsp
        simp [Mem.setChunk]
      · intro hrc hsp
        subst hsp
        simp [hrc, initRc, Mem.setChunk]
      · intro hsp
        subst hsp
        cases hrc : a.rc <;> simp [hrc, initRc]
    · -- full tail: link the fresh chunk after it
      have hgfull : g.length = C := by
        have h1 : a.tail_len = g.length := by
          rw [htl]
          unfold lastLen
          rw [hgq]
          rfl
        have h2 := (chainSeg_groups_le hchain (gs.length - 1) g
          (by rw [← List.getLast?_eq_getElem?]; exact hgq)).1
        omega
      have hgsne : gs ≠ [] := by
        intro h0
        rw [h0] at hgq
        simp at hgq
      have hcne : cids ≠ [] := by
        intro h0
        rw [h0] at hclen
        exact hgsne (List.length_eq_zero.mp hclen.symm)
      obtain ⟨cl, hcl⟩ : ∃ cl, cids.getLast? = some cl := by
        cases hq : cids.getLast? with
        | none => exact absurd (List.getLast?_eq_none_iff.mp hq) hcne
        | some cl => exact ⟨cl, rfl⟩
      obtain ⟨c0, hc0⟩ : ∃ c0, cids.head? = some c0 := by
        cases hcc : cids with
        | nil => exact absurd hcc hcne
        | cons x l => exact ⟨x, rfl⟩
      have hidx : cids[cids.length - 1]? = some cl := by
        rw [← List.getLast?_eq_getElem?]
        exact hcl
      obtain ⟨chl, gL, hchl, -, -, -, -, -, -⟩ :=
        chainSeg_elem hchain _ cl hidx
      have hcllt : cl < m.chunks.length := hnid cl (mem_of_getLast hcl)
      have hclne : cl ≠ m.chunks.length := Nat.ne_of_lt hcllt
      have hm1get : Mem.getChunk
          { m with chunks := m.chunks ++ [some ⟨List.replicate C none, none⟩] }
          cl = some chl := by
        rw [getChunk_append _ hcllt]
        exact hchl
      have hens := ensureFreeSpace_grow m (by omega) hlt
      rw [show a.tail = some cl from htail.trans hcl] at hens
      rw [chunkNew_some C m hm1get] at hens
      rw [show a.head = some c0 from hhead.trans hc0] at hens
      simp only [Option.getD_some] at hens
      have hstep := tryAllocPtr_ok sp v hens rfl
      dsimp only at hstep
      have hwget : ∀ RC : Nat,
          Mem.getChunk
            { (Mem.setChunk
                { m with chunks :=
                    m.chunks ++ [some ⟨List.replicate C none, none⟩] } cl
                (some { chl with next := some m.chunks.length }))
              with rcCount := RC } m.chunks.length
            = some (⟨List.replicate C none, none⟩ : Chunk α) := by
        intro RC
        rw [show ∀ mm : Mem α, ∀ n c, Mem.getChunk { mm with rcCount := n } c
          = mm.getChunk c from fun _ _ _ => rfl]
        rw [getChunk_set_ne _ _ hclne]
        exact getChunk_concat_new m _
      rw [writeSlot_eq 0 v (hwget _)] at hstep
      have hnotmem : m.chunks.length ∉ cids := by
        intro hmem
        exact absurd (hnid _ hmem) (by omega)
      have hfullg : ∀ g' ∈ gs, g'.length = C := by
        refine chainSeg_all_full hchain (fun g' hg' => ?_)
        rw [hgq] at hg'
        rw [← Option.some.inj hg']
        exact hgfull
      refine ⟨⟨m.chunks.length, 0⟩, _, _, cids ++ [m.chunks.length],
        gs ++ [[v]], hstep, ⟨?_, ?_, ?_, ?_, ?_, ?_, ?_, ?_⟩,
        ⟨[m.chunks.length], rfl, ?_⟩, ?_, ?_, ?_, ?_, ?_, ?_, ?_⟩
      · -- the chain over the final memory
        have s1 := chainSeg_append_chunks
          [some ⟨List.replicate C none, none⟩] hchain
        have s2 := @chainSeg_retarget α C
          { m with chunks := m.chunks ++ [some ⟨List.replicate C none, none⟩] }
          cl m.chunks.length chl cids gs s1 hnd hcl hm1get
        have s3 := chainSeg_rcCount
          ((if sp then initRc a.rc
              ({ m with chunks := m.chunks ++
                [some ⟨List.replicate C none, none⟩] } : Mem α).rcCount
            else (a.rc,
              ({ m with chunks := m.chunks ++
                [some ⟨List.replicate C none, none⟩] } : Mem α).rcCount)).2) s2
        have s4 := chainSeg_set_outside
          (some (⟨(List.replicate C none).set 0 (some v), none⟩ : Chunk α))
          hnotmem s3
        refine chainSeg_snoc s4 hfullg (getChunk_set_self _ _ ?_) ?_ ?_ hC rfl
        · simp [Mem.setChunk]
        · simp
        · rw [List.getElem?_set_self (by simpa using hC)]
      · rw [List.flatten_append, hflat]
        simp
      · rw [List.nodup_append]
        refine ⟨hnd, by simp, ?_⟩
        intro c hc hc2
        simp at hc2
        rw [hc2] at hc
        exact hnotmem hc
      · rw [List.head?_append, hc0]
        rfl
      · rw [List.getLast?_concat]
      · simp [lastLen]
      · rw [hlen]
        simp
      · intro g' hg'
        rw [List.getLast?_concat] at hg'
        rw [← Option.some.inj hg']
        simp
      · simp [Mem.setChunk]
      · simp
      · intro i g' hgi
        have hi : i < gs.length := (List.getElem?_eq_some.mp hgi).1
        refine ⟨g', ?_, Nat.le_refl _⟩
        rw [List.getElem?_append, if_pos hi]
        exact hgi
      · rw [chainPairs_append [m.chunks.length] [[v]] hclen]
        simp [chainPairs, slotPairs]
      · intro r hr
        cases sp <;> simp [hr, initRc, Mem.setChunk]
      · intro hsp
        subst hsp
        simp [Mem.setChunk]
      · intro hrc hsp
        subst hsp
        simp [hrc, initRc, Mem.setChunk]
      · intro hsp
        subst hsp
        cases hrc : a.rc <;> simp [hrc, initRc]

/-- A run of successful allocations from a represented state. -/
theorem allocAll_rep {α : Type} {C : Nat} (hC : 1 ≤ C) (sp : Bool) :
    ∀ (vs : List α) {a : Arena} {m : Mem α} {xs : List α} {cids : List Nat}
      {gs : List (List α)}, RepW C a m xs cids gs →
    ∃ ps a1 m1 cids1 gs1,
      allocAll C sp vs a m = some (ps, a1, m1) ∧
      RepW C a1 m1 (xs ++ vs) cids1 gs1 ∧
      ps.length = vs.length ∧
      (∃ e, cids1 = cids ++ e ∧
        m1.chunks.length = m.chunks.length + e.length) ∧
      gs.length ≤ gs1.length ∧
      (∀ (i : Nat) (g : List α), gs[i]? = some g →
        ∃ g1 : List α, gs1[i]? = some g1 ∧ g.length ≤ g1.length) ∧
      chainPairs cids1 gs1 = chainPairs cids gs ++ ps.zip (vs.map some) ∧
      m.rcCount ≤ m1.rcCount ∧
      (∀ r, a.rc = some r → a1.rc = some r) ∧
      (sp = false → a1.rc = a.rc ∧ m1.rcCount = m.rcCount) ∧
      (a.rc = none →
        a1.rc = none ∨ ∃ r, a1.rc = some r ∧ m.rcCount ≤ r ∧ r < m1.rcCount) ∧
      (sp = true → vs ≠ [] → a1.rc.isSome) := by
  intro vs
  induction vs with
  | nil =>
    intro a m xs cids gs h
    exact ⟨[], a, m, cids, gs, rfl, by simpa using h, rfl,
      ⟨[], (List.append_nil cids).symm, rfl⟩, Nat.le_refl _,
      fun i g hg => ⟨g, hg, Nat.le_refl _⟩, by simp,
      Nat.le_refl _, fun r hr => hr, fun _ => ⟨rfl, rfl⟩,
      fun h0 => Or.inl h0, fun _ h0 => absurd rfl h0⟩
  | cons v vs ih =>
    intro a m xs cids gs h
    obtain ⟨p, a1, m1, cids1, gs1, hstep, hrep1, ⟨e1, he1, hlen1⟩, hg1len,
      hg1mono, hpairs1, hrc1, hrcf1, hrcn1, hrcs1⟩ := tryAlloc_rep hC sp v h
    obtain ⟨ps, a2, m2, cids2, gs2, hrun, hrep2, hpslen, ⟨e2, he2, hlen2⟩,
      hg2len, hg2mono, hpairs2, hrccnt2, hrc2, hrcf2, hrcn2, hrcs2⟩ :=
      ih hrep1
    refine ⟨p :: ps, a2, m2, cids2, gs2, ?_, ?_, ?_, ?_, ?_, ?_, ?_, ?_, ?_,
      ?_, ?_, ?_⟩
    · show allocAll C sp (v :: vs) a m = _
      simp only [allocAll, hstep, hrun]
    · have h2 := hrep2
      rw [List.append_assoc] at h2
      exact h2
    · simp [hpslen]
    · refine ⟨e1 ++ e2, by rw [he2, he1, List.append_assoc], ?_⟩
      rw [hlen2, hlen1, List.length_append]
      omega
    · exact Nat.le_trans hg1len hg2len
    · intro i g hg
      obtain ⟨g1, h1, l1⟩ := hg1mono i g hg
      obtain ⟨g2, h2, l2⟩ := hg2mono i g1 h1
      exact ⟨g2, h2, Nat.le_trans l1 l2⟩
    · rw [hpairs2, hpairs1, List.append_assoc]
      rfl
    · have hmono1 : m.rcCount ≤ m1.rcCount := by
        cases hrc : a.rc with
        | some r => exact Nat.le_of_eq (hrc1 r hrc).2.symm
        | none =>
          cases hsp : sp with
          | false => exact Nat.le_of_eq (hrcf1 hsp).2.symm
          | true =>
            rw [(hrcn1 hrc hsp).2]
            omega
      exact Nat.le_trans hmono1 hrccnt2
    · exact fun r hr => hrc2 r (hrc1 r hr).1
    · intro hsp
      exact ⟨((hrcf2 hsp).1).trans (hrcf1 hsp).1,
        ((hrcf2 hsp).2).trans (hrcf1 hsp).2⟩
    · intro hrc
      cases hsp : sp with
      | false =>
        left
        rw [(hrcf2 hsp).1, (hrcf1 hsp).1]
        exact hrc
      | true =>
        right
        obtain ⟨h1rc, h1cnt⟩ := hrcn1 hrc hsp
        refine ⟨m.rcCount, hrc2 _ h1rc, Nat.le_refl _, ?_⟩
        omega
    · intro hsp _
      have h1 : a1.rc.isSome := hrcs1 hsp
      cases hq : a1.rc with
      | none =>
        rw [hq] at h1
        simp at h1
      | some r =>
        rw [hrc2 r hq]
        rfl

/-! ### Single calls of `IterPtr::next` -/

/-- A non-boundary call: yields the current slot and advances. -/
theorem iterNext_within {α : Type} {C : Nat} (DROP : Bool) (m : Mem α)
    {it : IterPtr} {c : Nat} (hchunk : it.chunk = some c)
    (hne : it.endp ≠ some ⟨c, it.index⟩) (hlt : it.index < C) :
    iterNext C DROP m it =
      (some ⟨c, it.index⟩, { it with index := it.index + 1 }, m) := by
  unfold iterNext
  rw [hchunk]
  dsimp only
  rw [if_neg]
  simp only [Bool.or_eq_true, decide_eq_true_eq, not_or]
  exact ⟨hne, by omega⟩

/-- A call at chunk capacity with a successor chunk: the iterator moves to
    the next chunk, yields its first slot, and (when consuming)
    deallocates the finished chunk. -/
theorem iterNext_cross {α : Type} {C : Nat} (DROP : Bool) {m : Mem α}
    {it : IterPtr} {c c' : Nat} {ch : Chunk α}
    (hchunk : it.chunk = some c)
    (hne : it.endp ≠ some ⟨c, it.index⟩) (hge : C ≤ it.index)
    (hget : m.getChunk c = some ch) (hnext : ch.next = some c') :
    iterNext C DROP m it =
      (some ⟨c', 0⟩, { it with chunk := some c', index := 1 },
       if DROP then m.setChunk c none else m) := by
  unfold iterNext
  rw [hchunk]
  dsimp only
  rw [if_pos (by simp only [Bool.or_eq_true, decide_eq_true_eq]; omega),
    show (decide (it.endp = some ⟨c, it.index⟩)) = false from
      decide_eq_false hne]
  simp only [Bool.false_eq_true, if_false, hget, Option.some_bind, hnext,
    Option.isSome_some, Bool.or_true, if_true]

/-- A call whose current slot is the exclusive end pointer: the iterator is
    exhausted; a consuming iterator clears its chunk reference and
    deallocates the tail chunk. -/
theorem iterNext_atEnd {α : Type} {C : Nat} (DROP : Bool) (m : Mem α)
    {it : IterPtr} {c : Nat} (hchunk : it.chunk = some c)
    (hisend : it.endp = some ⟨c, it.index⟩) :
    iterNext C DROP m it =
      (none,
       if DROP then { it with index := 0, chunk := none } else it,
       if DROP then m.setChunk c none else m) := by
  unfold iterNext
  rw [hchunk]
  dsimp only
  rw [if_pos (by simp [hisend]),
    show (decide (it.endp = some ⟨c, it.index⟩)) = true from
      decide_eq_true hisend]
  simp only [if_true, Option.isSome_none, Bool.or_false]

/-- A non-consuming call never modifies the memory. -/
theorem iterNext_mem_eq {α : Type} (C : Nat) (m : Mem α) (it : IterPtr) :
    (iterNext C false m it).2.2 = m := by
  unfold iterNext
  cases it.chunk with
  | none => rfl
  | some c =>
    dsimp only
    simp only [Bool.false_eq_true, if_false]
    repeat' split
    all_goals rfl

/-- A non-consuming run never modifies the memory. -/
theorem iterRun_mem_eq {α : Type} (C : Nat) :
    ∀ (fuel : Nat) (m : Mem α) (it : IterPtr),
      (iterRun C false fuel m it).2.2 = m
  | 0, _, _ => rfl
  | fuel + 1, m, it => by
    unfold iterRun
    have hm := iterNext_mem_eq C m it
    rcases hnx : iterNext C false m it with ⟨p, it1, m1⟩
    rw [hnx] at hm
    have hm1 : m1 = m := hm
    subst hm1
    cases p with
    | none => rfl
    | some p => exact iterRun_mem_eq C fuel m1 it1

/-- `IterPtr::next` never changes the `end` pointer or the token copy. -/
theorem iterNext_endp_rc {α : Type} (C : Nat) (DROP : Bool) (m : Mem α)
    (it : IterPtr) :
    (iterNext C DROP m it).2.1.endp = it.endp ∧
      (iterNext C DROP m it).2.1.rc = it.rc := by
  unfold iterNext
  cases it.chunk with
  | none => exact ⟨rfl, rfl⟩
  | some c =>
    dsimp only
    repeat' split
    all_goals exact ⟨rfl, rfl⟩

theorem iterRun_endp_rc {α : Type} (C : Nat) (DROP : Bool) :
    ∀ (fuel : Nat) (m : Mem α) (it : IterPtr),
      (iterRun C DROP fuel m it).2.1.endp = it.endp ∧
        (iterRun C DROP fuel m it).2.1.rc = it.rc
  | 0, _, _ => ⟨rfl, rfl⟩
  | fuel + 1, m, it => by
    unfold iterRun
    have h := iterNext_endp_rc C DROP m it
    rcases hnx : iterNext C DROP m it with ⟨p, it1, m1⟩
    rw [hnx] at h
    cases p with
    | none => exact h
    | some p =>
      dsimp only
      rw [← h.1, ← h.2]
      exact iterRun_endp_rc C DROP fuel m1 it1

/-! ### Iterator states over a chain -/

/-- A valid iterator state over the chain `cids`/`gs` that has yielded `k`
    items.  For a consuming (`DROP`) iterator, the chunks strictly before
    the current one have already been deallocated. -/
def IterStateD {α : Type} (C : Nat) (DROP : Bool) (m0 : Mem α)
    (cids : List Nat) (gs : List (List α)) (endp : Option Ptr)
    (rc : Option Nat) (k : Nat) (it : IterPtr) (m : Mem α) : Prop :=
  it.endp = endp ∧ it.rc = rc ∧
  ((cids = [] ∧ it.chunk = none ∧ it.index = 0 ∧ k = 0 ∧ m = m0) ∨
   (∃ i j c g, cids[i]? = some c ∧ it.chunk = some c ∧ it.index = j ∧
     k = i * C + j ∧ gs[i]? = some g ∧ j ≤ g.length ∧
     m = m0.freeAll (if DROP then cids.take i else [])))

theorem nodup_getElem_notin_take {β : Type} :
    ∀ {l : List β}, l.Nodup → ∀ {i : Nat} {x : β}, l[i]? = some x →
      x ∉ l.take i := by
  intro l
  induction l with
  | nil => intro _ i x hx; simp at hx
  | cons a l ih =>
    intro hnd i x hx
    match i with
    | 0 => simp
    | i + 1 =>
      rw [List.getElem?_cons_succ] at hx
      rw [List.take_succ_cons]
      intro hmem
      rcases List.mem_cons.mp hmem with rfl | hmem
      · exact (List.nodup_cons.mp hnd).1 (List.getElem?_mem hx)
      · exact ih (List.nodup_cons.mp hnd).2 hx hmem

theorem nodup_getElem_inj {β : Type} :
    ∀ {l : List β}, l.Nodup → ∀ {i i' : Nat} {x : β},
      l[i]? = some x → l[i']? = some x → i = i' := by
  intro l
  induction l with
  | nil => intro _ i i' x hx; simp at hx
  | cons a l ih =>
    intro hnd i i' x hx hx'
    match i, i' with
    | 0, 0 => rfl
    | 0, i' + 1 =>
      rw [List.getElem?_cons_zero] at hx
      rw [List.getElem?_cons_succ] at hx'
      obtain rfl : a = x := Option.some.inj hx
      exact absurd (List.getElem?_mem hx') (List.nodup_cons.mp hnd).1
    | i + 1, 0 =>
      rw [List.getElem?_cons_zero] at hx'
      rw [List.getElem?_cons_succ] at hx
      obtain rfl : a = x := Option.some.inj hx'
      exact absurd (List.getElem?_mem hx) (List.nodup_cons.mp hnd).1
    | i + 1, i' + 1 =>
      rw [List.getElem?_cons_succ] at hx hx'
      rw [ih (List.nodup_cons.mp hnd).2 hx hx']

theorem sumLen_at {α : Type} {C : Nat} :
    ∀ {gs : List (List α)},
      (∀ i g, i + 1 < gs.length → gs[i]? = some g → g.length = C) →
      ∀ (i : Nat) (g : List α), gs[i]? = some g →
      i * C + g.length ≤ sumLen gs ∧
        (i + 1 = gs.length → i * C + g.length = sumLen gs) := by
  intro gs
  induction gs with
  | nil => intro _ i g hg; simp at hg
  | cons g0 gr ih =>
    intro hfull i g hg
    match i with
    | 0 =>
      rw [List.getElem?_cons_zero] at hg
      obtain rfl : g0 = g := Option.some.inj hg
      constructor
      · show 0 * C + g0.length ≤ g0.length + sumLen gr
        omega
      · intro h1
        have hgr : gr = [] := by
          have : gr.length = 0 := by simpa using h1.symm
          exact List.length_eq_zero.mp this
        subst hgr
        show 0 * C + g0.length = g0.length + sumLen ([] : List (List α))
        simp [sumLen]
    | i + 1 =>
      rw [List.getElem?_cons_succ] at hg
      have hgrpos : 0 < gr.length := by
        have := (List.getElem?_eq_some.mp hg).1
        omega
      have hg0 : g0.length = C := by
        refine hfull 0 g0 (by simp; omega) List.getElem?_cons_zero
      have hih := ih (fun i' g' hi' hg' =>
        hfull (i' + 1) g' (by simpa using hi')
          (by rw [List.getElem?_cons_succ]; exact hg')) i g hg
      constructor
      · show (i + 1) * C + g.length ≤ g0.length + sumLen gr
        rw [Nat.succ_mul, hg0]
        omega
      · intro h1
        have h2 : i + 1 = gr.length := by simpa using h1
        have := hih.2 h2
        show (i + 1) * C + g.length = g0.length + sumLen gr
        rw [Nat.succ_mul, hg0]
        omega

theorem groups_pos {α : Type} {C : Nat} (hC : 1 ≤ C) {m0 : Mem α}
    {cids : List Nat} {gs : List (List α)}
    (hchain : chainSeg C m0 none cids gs)
    (hlast : ∀ g, gs.getLast? = some g → g ≠ []) :
    ∀ (i : Nat) (g : List α), gs[i]? = some g → 0 < g.length := by
  intro i g hg
  have hi : i < gs.length := (List.getElem?_eq_some.mp hg).1
  by_cases h1 : i + 1 < gs.length
  · have := (chainSeg_groups_le hchain i g hg).2 h1
    omega
  · have hieq : i = gs.length - 1 := by omega
    have hlast2 : gs.getLast? = some g := by
      rw [List.getLast?_eq_getElem?, ← hieq]
      exact hg
    have := hlast g hlast2
    exact List.length_pos_of_ne_nil this

/-- One yielding call of `next` from a valid mid-iteration state. -/
theorem iterNext_yield {α : Type} {C : Nat} (hC : 1 ≤ C) (DROP : Bool)
    {m0 : Mem α} {cids : List Nat} {gs : List (List α)}
    (hchain : chainSeg C m0 none cids gs) (hnd : cids.Nodup)
    (hlast : ∀ g, gs.getLast? = some g → g ≠ [])
    {endp : Option Ptr} {rc : Option Nat}
    (hend : cids = [] ∨ ∃ cL gL, cids.getLast? = some cL ∧
      gs.getLast? = some gL ∧ endp = some ⟨cL, gL.length⟩)
    {k : Nat} {it : IterPtr} {m : Mem α}
    (hst : IterStateD C DROP m0 cids gs endp rc k it m)
    (hk : k < sumLen gs) :
    ∃ pv it1 m1, (chainPairs cids gs)[k]? = some pv ∧
      iterNext C DROP m it = (some pv.1, it1, m1) ∧
      readPtr m1 pv.1 = pv.2 ∧
      IterStateD C DROP m0 cids gs endp rc (k + 1) it1 m1 := by
  have hclen := chainSeg_length hchain
  have hfull : ∀ i g, i + 1 < gs.length → gs[i]? = some g → g.length = C :=
    fun i g hi hg => (chainSeg_groups_le hchain i g hg).2 hi
  obtain ⟨hendp, hrc, hbr⟩ := hst
  subst hendp
  subst hrc
  rcases hbr with ⟨hcn, -, -, -, -⟩ |
    ⟨i, j, c, g, hci, hchn, hij, hk2, hgi, hjle, hmem⟩
  · subst hcn
    have hgs : gs = [] := hchain
    subst hgs
    simp [sumLen] at hk
  · subst hij
    subst hk2
    have hread : ∀ c', c' ∉ cids.take i →
        m.getChunk c' = m0.getChunk c' := by
      intro c' hc'
      rw [hmem, getChunk_freeAll, if_neg]
      intro hin
      cases DROP with
      | false => simp at hin
      | true => exact hc' (by simpa using hin)
    obtain ⟨ch, g', hget0, hgi', hslen, hpre, hgle, hnext, hfullc⟩ :=
      chainSeg_elem hchain i c hci
    rw [hgi] at hgi'
    obtain rfl : g = g' := Option.some.inj hgi'
    have hgetm : m.getChunk c = some ch := by
      rw [hread c (nodup_getElem_notin_take hnd hci)]
      exact hget0
    have hcne : cids ≠ [] := by
      intro h0
      rw [h0] at hci
      simp at hci
    obtain ⟨cL, gL, hcL, hgL, hendq⟩ := hend.resolve_left hcne
    have hilt : i < cids.length := (List.getElem?_eq_some.mp hci).1
    have hendhit : ∀ idx : Nat, it.endp = some ⟨c, idx⟩ →
        i + 1 = cids.length ∧ idx = g.length := by
      intro idx hq
      rw [hendq] at hq
      have hqq := Option.some.inj hq
      have hcc : cL = c := congrArg Ptr.chunk hqq
      have hii : gL.length = idx := congrArg Ptr.index hqq
      have hciL : cids[cids.length - 1]? = some c := by
        rw [← List.getLast?_eq_getElem?, hcL, hcc]
      have hieq : i = cids.length - 1 := nodup_getElem_inj hnd hci hciL
      have hgiL : gs[cids.length - 1]? = some gL := by
        rw [hclen, ← List.getLast?_eq_getElem?]
        exact hgL
      rw [← hieq, hgi] at hgiL
      have hgeq : gL = g := (Option.some.inj hgiL).symm
      have hLpos : 0 < cids.length := List.length_pos_of_ne_nil hcne
      exact ⟨by omega, by rw [← hii, hgeq]⟩
    by_cases hj : it.index < g.length
    · -- within-chunk yield
      have hne : it.endp ≠ some ⟨c, it.index⟩ := by
        intro hq
        have := (hendhit _ hq).2
        omega
      have hnx := @iterNext_within α C DROP m it c hchn hne (by omega)
      refine ⟨(⟨c, it.index⟩, g[it.index]?), _, _,
        chainPairs_get hclen hfull i c g it.index hci hgi hj, hnx, ?_, ?_⟩
      · unfold readPtr
        rw [hgetm]
        dsimp only [Option.some_bind]
        rw [hpre it.index hj]
        rfl
      · refine ⟨rfl, rfl, Or.inr ⟨i, it.index + 1, c, g, hci, ?_, rfl,
          by omega, hgi, by omega, hmem⟩⟩
        show it.chunk = some c
        exact hchn
    · -- crossing to the next chunk
      have hjeq : it.index = g.length := by omega
      have hfin := sumLen_at hfull i g hgi
      have hi1 : i + 1 ≠ cids.length := by
        intro heq
        have := hfin.2 (by rw [← hclen]; exact heq)
        omega
      have hi1lt : i + 1 < cids.length := by omega
      obtain ⟨c', hc'⟩ : ∃ c', cids[i + 1]? = some c' :=
        ⟨_, List.getElem?_eq_getElem hi1lt⟩
      have hnext' : ch.next = some c' := by rw [hnext, hc']
      have hgfullC : g.length = C := hfullc hi1lt
      have hne : it.endp ≠ some ⟨c, it.index⟩ := by
        intro hq
        have := (hendhit _ hq).1
        omega
      have hnx := @iterNext_cross α C DROP m it c c' ch hchn hne (by omega) hgetm hnext'
      obtain ⟨ch2, g2, hget2, hg2, hslen2, hpre2, -, -, -⟩ :=
        chainSeg_elem hchain (i + 1) c' hc'
      have hg2pos : 0 < g2.length := groups_pos hC hchain hlast (i + 1) g2 hg2
      have hkval : i * C + it.index = (i + 1) * C + 0 := by
        rw [Nat.succ_mul]
        omega
      have hcc' : c' ≠ c := by
        intro he
        have := nodup_getElem_inj hnd hc' (he ▸ hci)
        omega
      have hsub : cids.take i ⊆ cids.take (i + 1) := by
        intro x hx
        have hx2 : x ∈ (cids.take (i + 1)).take i := by
          rw [List.take_take]
          have : min i (i + 1) = i := by omega
          rw [this]
          exact hx
        exact List.take_subset _ _ hx2
      have hc'free : c' ∉ cids.take i :=
        fun hmem2 => nodup_getElem_notin_take hnd hc' (hsub hmem2)
      have hgetm1 :
          (if DROP then m.setChunk c none else m).getChunk c' = some ch2 := by
        have h1 : m.getChunk c' = some ch2 := by
          rw [hread c' hc'free]
          exact hget2
        cases DROP with
        | false => exact h1
        | true =>
          rw [if_pos rfl, getChunk_set_ne m none (fun he => hcc' he.symm)]
          exact h1
      rw [hkval]
      refine ⟨(⟨c', 0⟩, g2[0]?), _, _,
        chainPairs_get hclen hfull (i + 1) c' g2 0 hc' hg2 hg2pos, hnx,
        ?_, ?_⟩
      · unfold readPtr
        rw [hgetm1]
        dsimp only [Option.some_bind]
        rw [hpre2 0 hg2pos]
        rfl
      · refine ⟨rfl, rfl, Or.inr ⟨i + 1, 1, c', g2, hc', rfl, rfl,
          by omega, hg2, by omega, ?_⟩⟩
        cases DROP with
        | false => simpa using hmem
        | true =>
          simp only [if_pos rfl, if_true] at hmem ⊢
          have htake : cids.take (i + 1) = cids.take i ++ [c] := by
            have hcelem : cids[i] = c := by
              have := List.getElem?_eq_getElem hilt
              rw [hci] at this
              exact (Option.some.inj this).symm
            rw [← hcelem, ← List.take_concat_get cids i hilt]
            exact List.concat_eq_append _ _
          rw [htake, freeAll_append, hmem]
          rfl

/-- A call of `next` at the exhaustion point yields `none`; in the
    consuming (`DROP`) mode the entire chunk chain has then been freed. -/
theorem iterNext_exhaust {α : Type} {C : Nat} (hC : 1 ≤ C) (DROP : Bool)
    {m0 : Mem α} {cids : List Nat} {gs : List (List α)}
    (hchain : chainSeg C m0 none cids gs) (hnd : cids.Nodup)
    (hlast : ∀ g, gs.getLast? = some g → g ≠ [])
    {endp : Option Ptr} {rc : Option Nat}
    (hend : cids = [] ∨ ∃ cL gL, cids.getLast? = some cL ∧
      gs.getLast? = some gL ∧ endp = some ⟨cL, gL.length⟩)
    {k : Nat} {it : IterPtr} {m : Mem α}
    (hst : IterStateD C DROP m0 cids gs endp rc k it m)
    (hk : k = sumLen gs) :
    ∃ it1, iterNext C DROP m it =
      (none, it1, m0.freeAll (if DROP then cids else [])) := by
  have hclen := chainSeg_length hchain
  have hfull : ∀ i g, i + 1 < gs.length → gs[i]? = some g → g.length = C :=
    fun i g hi hg => (chainSeg_groups_le hchain i g hg).2 hi
  obtain ⟨hendp, hrc, hbr⟩ := hst
  rcases hbr with ⟨hcn, hchn, -, -, hmeq⟩ |
    ⟨i, j, c, g, hci, hchn, hij, hk2, hgi, hjle, hmem⟩
  · subst hcn
    refine ⟨it, ?_⟩
    have h1 : iterNext C DROP m it = (none, it, m) := by
      unfold iterNext
      rw [hchn]
    rw [h1, hmeq]
    cases DROP <;> rfl
  · subst hij
    subst hk2
    have hilt : i < cids.length := (List.getElem?_eq_some.mp hci).1
    have hfin := (sumLen_at hfull i g hgi).1
    have hjeq : it.index = g.length := by omega
    have hseq : i * C + g.length = sumLen gs := by omega
    have hlasti : i + 1 = gs.length := by
      by_contra hne
      have hi1 : i + 1 < gs.length := by omega
      obtain ⟨g', hg'⟩ : ∃ g', gs[i + 1]? = some g' :=
        ⟨_, List.getElem?_eq_getElem hi1⟩
      have h1 := (sumLen_at hfull (i + 1) g' hg').1
      have hgC : g.length = C := hfull i g hi1 hgi
      have hgp : 0 < g'.length := groups_pos hC hchain hlast (i + 1) g' hg'
      rw [Nat.succ_mul] at h1
      omega
    have hcne : cids ≠ [] := by
      intro h0
      rw [h0] at hci
      simp at hci
    obtain ⟨cL, gL, hcL, hgL, hendq⟩ := hend.resolve_left hcne
    have hieq : i = cids.length - 1 := by omega
    have hceq : cL = c := by
      have h2 : cids[i]? = some cL := by
        rw [hieq, ← List.getLast?_eq_getElem?]
        exact hcL
      rw [hci] at h2
      exact (Option.some.inj h2).symm
    have hgeq : gL = g := by
      have h2 : gs[i]? = some gL := by
        rw [hieq, hclen, ← List.getLast?_eq_getElem?]
        exact hgL
      rw [hgi] at h2
      exact (Option.some.inj h2).symm
    have hisend : it.endp = some ⟨c, it.index⟩ := by
      rw [hendp, hendq, hceq, hgeq, hjeq]
    have hnx := @iterNext_atEnd α C DROP m it c hchn hisend
    refine ⟨if DROP then { it with index := 0, chunk := none } else it, ?_⟩
    rw [hnx]
    refine congrArg _ (congrArg _ ?_)
    cases DROP with
    | false => simpa using hmem
    | true =>
      simp only [if_pos rfl, if_true] at hmem ⊢
      have hcelem : cids[i] = c := by
        have := List.getElem?_eq_getElem hilt
        rw [hci] at this
        exact (Option.some.inj this).symm
      have htake : cids = cids.take i ++ [c] := by
        rw [← hcelem, ← List.concat_eq_append,
          List.take_concat_get cids i hilt]
        exact (List.take_of_length_le (by omega)).symm
      rw [hmem]
      conv_rhs => rw [htake]
      rw [freeAll_append]
      rfl

/-- Running the iterator for exactly `j` steps (with `k + j` not past the
    end) yields the next `j` expected pairs and lands in state `k + j`. -/
theorem iterRun_steps {α : Type} {C : Nat} (hC : 1 ≤ C) (DROP : Bool)
    {m0 : Mem α} {cids : List Nat} {gs : List (List α)}
    (hchain : chainSeg C m0 none cids gs) (hnd : cids.Nodup)
    (hlast : ∀ g, gs.getLast? = some g → g ≠ [])
    {endp : Option Ptr} {rc : Option Nat}
    (hend : cids = [] ∨ ∃ cL gL, cids.getLast? = some cL ∧
      gs.getLast? = some gL ∧ endp = some ⟨cL, gL.length⟩) :
    ∀ (j : Nat) {k : Nat} {it : IterPtr} {m : Mem α},
      IterStateD C DROP m0 cids gs endp rc k it m →
      k + j ≤ sumLen gs →
      ∃ it1 m1, iterRun C DROP j m it =
        (((chainPairs cids gs).drop k).take j, it1, m1) ∧
        IterStateD C DROP m0 cids gs endp rc (k + j) it1 m1 := by
  intro j
  induction j with
  | zero =>
    intro k it m hst _
    exact ⟨it, m, rfl, hst⟩
  | succ j ih =>
    intro k it m hst hkj
    obtain ⟨pv, it1, m1, hpv, hnx, hrd, hst1⟩ :=
      iterNext_yield hC DROP hchain hnd hlast hend hst (by omega)
    obtain ⟨it2, m2, hrun, hst2⟩ := ih hst1 (by omega)
    refine ⟨it2, m2, ?_, by rw [show k + (j + 1) = k + 1 + j by omega]; exact hst2⟩
    have hklen : k < (chainPairs cids gs).length := by
      rw [chainPairs_length (chainSeg_length hchain)]
      omega
    have hdrop : (chainPairs cids gs).drop k =
        pv :: (chainPairs cids gs).drop (k + 1) := by
      rw [List.drop_eq_getElem_cons hklen]
      have h3 : (chainPairs cids gs)[k] = pv := by
        have h2 := List.getElem?_eq_getElem hklen
        rw [hpv] at h2
        exact (Option.some.inj h2).symm
      rw [h3]
    simp only [iterRun]
    rw [hnx]
    dsimp only
    rw [hrun, hrd, hdrop]
    simp

/-- Running the iterator with enough fuel from state `k` yields all
    remaining expected pairs and, in the consuming mode, frees every chunk
    of the chain. -/
theorem iterRun_complete {α : Type} {C : Nat} (hC : 1 ≤ C) (DROP : Bool)
    {m0 : Mem α} {cids : List Nat} {gs : List (List α)}
    (hchain : chainSeg C m0 none cids gs) (hnd : cids.Nodup)
    (hlast : ∀ g, gs.getLast? = some g → g ≠ [])
    {endp : Option Ptr} {rc : Option Nat}
    (hend : cids = [] ∨ ∃ cL gL, cids.getLast? = some cL ∧
      gs.getLast? = some gL ∧ endp = some ⟨cL, gL.length⟩) :
    ∀ (fuel : Nat) {k : Nat} {it : IterPtr} {m : Mem α},
      IterStateD C DROP m0 cids gs endp rc k it m →
      k ≤ sumLen gs → sumLen gs - k < fuel →
      ∃ it1, iterRun C DROP fuel m it =
        ((chainPairs cids gs).drop k, it1,
         m0.freeAll (if DROP then cids else [])) := by
  intro fuel
  induction fuel with
  | zero =>
    intro k it m _ _ hf
    omega
  | succ f ih =>
    intro k it m hst hk hf
    by_cases hklt : k < sumLen gs
    · obtain ⟨pv, it1, m1, hpv, hnx, hrd, hst1⟩ :=
        iterNext_yield hC DROP hchain hnd hlast hend hst hklt
      obtain ⟨it2, hrun⟩ := ih hst1 (by omega) (by omega)
      refine ⟨it2, ?_⟩
      have hklen : k < (chainPairs cids gs).length := by
        rw [chainPairs_length (chainSeg_length hchain)]
        omega
      have hdrop : (chainPairs cids gs).drop k =
          pv :: (chainPairs cids gs).drop (k + 1) := by
        rw [List.drop_eq_getElem_cons hklen]
        have h3 : (chainPairs cids gs)[k] = pv := by
          have h2 := List.getElem?_eq_getElem hklen
          rw [hpv] at h2
          exact (Option.some.inj h2).symm
        rw [h3]
      simp only [iterRun]
      rw [hnx]
      dsimp only
      rw [hrun, hrd, hdrop]
    · have hkeq : k = sumLen gs := by omega
      obtain ⟨it1, hnx⟩ :=
        iterNext_exhaust hC DROP hchain hnd hlast hend hst hkeq
      refine ⟨it1, ?_⟩
      have hdrop : (chainPairs cids gs).drop k = [] := by
        apply List.drop_eq_nil_of_le
        rw [chainPairs_length (chainSeg_length hchain)]
        omega
      simp only [iterRun]
      rw [hnx, hdrop]

/-- A represented arena's end pointer marks the end of the last group. -/
theorem RepW_endOk {α : Type} {C : Nat} {a : Arena} {m : Mem α}
    {xs : List α} {cids : List Nat} {gs : List (List α)}
    (hrep : RepW C a m xs cids gs) :
    cids = [] ∨ ∃ cL gL, cids.getLast? = some cL ∧
      gs.getLast? = some gL ∧ a.endPtr = some ⟨cL, gL.length⟩ := by
  obtain ⟨hchain, -, -, -, htail, htlen, -, -⟩ := hrep
  by_cases hc : cids = []
  · exact Or.inl hc
  · have hlen2 := chainSeg_length hchain
    have hgne : gs ≠ [] := by
      intro h
      rw [h] at hlen2
      exact hc (List.eq_nil_of_length_eq_zero hlen2)
    obtain ⟨cL, hcL⟩ := Option.isSome_iff_exists.mp
      (List.getLast?_isSome.mpr hc)
    obtain ⟨gL, hgL⟩ := Option.isSome_iff_exists.mp
      (List.getLast?_isSome.mpr hgne)
    refine Or.inr ⟨cL, gL, hcL, hgL, ?_⟩
    show a.tail.map _ = _
    rw [htail, hcL]
    have h2 : a.tail_len = gL.length := by
      rw [htlen]
      show (gs.getLast?).elim C List.length = _
      rw [hgL]
      rfl
    simp [h2]

/-- The freshly created iterator of a represented arena is in state `0`. -/
theorem IterState_start {α : Type} {C : Nat} (DROP : Bool) {a : Arena}
    {m : Mem α} {xs : List α} {cids : List Nat} {gs : List (List α)}
    (hrep : RepW C a m xs cids gs) :
    IterStateD C DROP m cids gs a.endPtr a.rc 0 (arenaIter a) m := by
  obtain ⟨hchain, hflat, hnd, hhead, htail, htlen, hlen, hlast⟩ := hrep
  refine ⟨rfl, rfl, ?_⟩
  cases hc : cids with
  | nil =>
    exact Or.inl ⟨rfl, by simp [arenaIter, hhead, hc], rfl, rfl, rfl⟩
  | cons c0 cr =>
    have hlen2 := chainSeg_length hchain
    cases hg : gs with
    | nil =>
      rw [hc, hg] at hlen2
      simp at hlen2
    | cons g0 gr =>
      refine Or.inr ⟨0, 0, c0, g0, by simp, ?_, rfl, by omega,
        by simp, by omega, ?_⟩
      · show a.head = some c0
        rw [hhead, hc]
        rfl
      · cases DROP <;> rfl

/-- Resuming a snapshot against a grown chain restores the same logical
    state: the iterator produced by `iter_ptr_at` from a position taken at
    `k` yields from index `k` of the new chain. -/
theorem IterState_resume {α : Type} {C : Nat} {m0 m1 : Mem α}
    {cids e cids1 : List Nat} {gs gs1 : List (List α)}
    {endp0 : Option Ptr} {rc0 : Option Nat} {a1 : Arena}
    (hc1 : cids1 = cids ++ e)
    (hlen1 : cids1.length = gs1.length)
    (hhead : a1.head = cids1.head?)
    (hmono : ∀ (i : Nat) (g : List α), gs[i]? = some g →
      ∃ g1 : List α, gs1[i]? = some g1 ∧ g.length ≤ g1.length)
    {k : Nat} {it : IterPtr}
    (hst : IterStateD C false m0 cids gs endp0 rc0 k it m0) :
    IterStateD C false m1 cids1 gs1 a1.endPtr a1.rc k
      ⟨(it.chunk.map some).getD a1.head, it.index, a1.endPtr, a1.rc⟩ m1 := by
  obtain ⟨-, -, hbr⟩ := hst
  refine ⟨rfl, rfl, ?_⟩
  rcases hbr with ⟨hcn, hchn, hidx, hk, -⟩ |
    ⟨i, j, c, g, hci, hchn, hij, hk2, hgi, hjle, -⟩
  · -- the snapshot predates any allocation: resume from the new head
    cases hc : cids1 with
    | nil => exact Or.inl ⟨rfl, by simp [hchn, hhead, hc], hidx, hk, rfl⟩
    | cons c0 cr =>
      cases hg : gs1 with
      | nil =>
        rw [hc, hg] at hlen1
        simp at hlen1
      | cons g0 gr =>
        refine Or.inr ⟨0, 0, c0, g0, by simp, ?_, hidx, by omega,
          by simp, by omega, rfl⟩
        show (it.chunk.map some).getD a1.head = some c0
        rw [hchn, hhead, hc]
        rfl
  · have hilt : i < cids.length := (List.getElem?_eq_some.mp hci).1
    obtain ⟨g1, hg1, hle1⟩ := hmono i g hgi
    refine Or.inr ⟨i, j, c, g1, ?_, ?_, hij, hk2, hg1, by omega, rfl⟩
    · rw [hc1, List.getElem?_append_left hilt]
      exact hci
    · show (it.chunk.map some).getD a1.head = some c
      rw [hchn]
      rfl

/-- `ManuallyDropArena::drop`'s chain traversal visits exactly the
    allocated slots of the chain, in order, and deallocates every chunk. -/
theorem dropChain_spec {α : Type} {C : Nat} :
    ∀ {cids : List Nat} {gs : List (List α)} {m : Mem α} (fuel : Nat),
      chainSeg C m none cids gs → cids.Nodup →
      cids.length ≤ fuel →
      ∀ {c0 : Nat}, cids.head? = some c0 →
      dropChain C fuel c0 (lastLen C gs) m =
        ((chainPairs cids gs).map Prod.fst, m.freeAll cids) := by
  intro cids
  induction cids with
  | nil =>
    intro gs m fuel _ _ _ c0 hc0
    simp at hc0
  | cons c cr ih =>
    intro gs m fuel hchain hnd hfuel c0 hc0
    have hcc : c0 = c := (Option.some.inj hc0).symm
    subst hcc
    obtain ⟨g, gr, ch, rfl, hget, hslen, hpre, hgle, hnext, hlastfull, hrec⟩ :=
      hchain
    cases fuel with
    | zero => simp at hfuel
    | succ f =>
      cases cr with
      | nil =>
        obtain rfl : gr = [] := hrec
        have hnext2 : ch.next = none := by
          rw [hnext]
          rfl
        have hll : lastLen C [g] = g.length := rfl
        simp only [dropChain]
        rw [hget, Option.some_bind, hnext2, hll]
        show ((List.range g.length).map (Ptr.mk c0), m.setChunk c0 none) = _
        refine congrArg₂ _ ?_ rfl
        show _ = (slotPairs c0 g 0 g.length ++
          chainPairs ([] : List Nat) ([] : List (List α))).map Prod.fst
        rw [show chainPairs ([] : List Nat) ([] : List (List α)) =
          ([] : List (Ptr × Option α)) from rfl, List.append_nil,
          slotPairs_fst c0 g g.length 0, List.range_eq_range']
      | cons c2 cr' =>
        have hgfull : g.length = C := by
          rcases hlastfull with h | h
          · exact absurd h (by simp)
          · exact h
        have hnext2 : ch.next = some c2 := by
          rw [hnext]
          rfl
        have hnd2 := List.nodup_cons.mp hnd
        have hchain' : chainSeg C (m.setChunk c0 none) none (c2 :: cr') gr :=
          chainSeg_set_outside none hnd2.1 hrec
        have hglen := chainSeg_length hrec
        cases gr with
        | nil => simp at hglen
        | cons g2 gr2 =>
          have hih := ih f hchain' hnd2.2 (by simpa using hfuel) rfl
          have hll : lastLen C (g :: g2 :: gr2) = lastLen C (g2 :: gr2) := by
            show ((g :: g2 :: gr2).getLast?).elim C List.length = _
            rw [List.getLast?_cons_cons]
            rfl
          simp only [dropChain]
          rw [hget, Option.some_bind, hnext2, hll]
          dsimp only
          rw [hih]
          refine congrArg₂ _ ?_ rfl
          show _ = (slotPairs c0 g 0 g.length ++
            chainPairs (c2 :: cr') (g2 :: gr2)).map Prod.fst
          rw [List.map_append, slotPairs_fst c0 g g.length 0, hgfull,
            List.range_eq_range']

/-- The release operation on a represented arena: it destroys exactly the
    allocated slots in order, frees every chunk, and resets the handle;
    on an empty arena it returns immediately without touching anything. -/
theorem arenaDrop_spec {α : Type} {C : Nat} {a : Arena} {m : Mem α}
    {xs : List α} {cids : List Nat} {gs : List (List α)}
    (hrep : RepW C a m xs cids gs) {fuel : Nat}
    (hfuel : cids.length ≤ fuel) :
    ∃ a1, arenaDrop C fuel a m =
      ((chainPairs cids gs).map Prod.fst, a1, m.freeAll cids) ∧
      (cids = [] → a1 = a) ∧ (cids ≠ [] → a1 = Arena.new C) := by
  obtain ⟨hchain, hflat, hnd, hhead, htail, htlen, hlen, hlast⟩ := hrep
  cases hc : cids with
  | nil =>
    refine ⟨a, ?_, fun _ => rfl, fun hne => absurd rfl hne⟩
    have hh : a.head = none := by
      rw [hhead, hc]
      rfl
    unfold arenaDrop
    rw [hh]
    have hgs : gs = [] := by
      rw [hc] at hchain
      exact hchain
    rw [hgs]
    rfl
  | cons c cr =>
    rw [hc] at hchain hnd hfuel
    have hh : a.head = some c := by
      rw [hhead, hc]
      rfl
    have hdc := dropChain_spec fuel hchain hnd hfuel
      (show (c :: cr).head? = some c from rfl)
    refine ⟨Arena.new C, ?_, fun he => absurd he (by simp), fun _ => rfl⟩
    unfold arenaDrop
    rw [hh]
    dsimp only
    rw [htlen, hdc]

/-- Groups that are full except for a nonempty last group number exactly
    `ceil(total/C)`. -/
theorem groups_length_eq_ceil {α : Type} {C : Nat} (hC : 1 ≤ C)
    {gs : List (List α)}
    (hfull : ∀ (i : Nat) (g : List α), i + 1 < gs.length →
      gs[i]? = some g → g.length = C)
    (hbound : ∀ (i : Nat) (g : List α), gs[i]? = some g → g.length ≤ C)
    (hlast : ∀ g, gs.getLast? = some g → g ≠ []) :
    gs.length = ceilDiv (sumLen gs) C := by
  by_cases hgs : gs = []
  · subst hgs
    show 0 = (0 + C - 1) / C
    rw [Nat.zero_add]
    exact (Nat.div_eq_of_lt (by omega)).symm
  · have hLpos : 0 < gs.length := List.length_pos_of_ne_nil hgs
    obtain ⟨gL, hgL⟩ := Option.isSome_iff_exists.mp
      (List.getLast?_isSome.mpr hgs)
    have hi : gs[gs.length - 1]? = some gL := by
      rw [← List.getLast?_eq_getElem?]
      exact hgL
    have hsum := (sumLen_at hfull (gs.length - 1) gL hi).2 (by omega)
    have ht1 : 1 ≤ gL.length :=
      Nat.one_le_iff_ne_zero.mpr
        (fun h0 => hlast gL hgL (List.eq_nil_of_length_eq_zero h0))
    have htC : gL.length ≤ C := hbound _ _ hi
    set M := gs.length - 1 with hMdef
    have hM2 : gs.length = M + 1 := by omega
    show gs.length = (sumLen gs + C - 1) / C
    rw [← hsum, hM2]
    symm
    apply Nat.div_eq_of_lt_le
    · rw [Nat.succ_mul]
      omega
    · rw [Nat.succ_mul, Nat.succ_mul]
      omega

/-- The item total of the groups is the length of their concatenation. -/
theorem sumLen_flatten {α : Type} (gs : List (List α)) :
    sumLen gs = gs.flatten.length := by
  rw [List.length_flatten]
  rfl

/-! ### Remaining helper lemmas -/

/-- Nonempty-last, otherwise-full groups number at most their item total. -/
theorem length_le_sumLen {α : Type} {C : Nat} (hC : 1 ≤ C)
    {gs : List (List α)}
    (hfull : ∀ (i : Nat) (g : List α), i + 1 < gs.length →
      gs[i]? = some g → g.length = C)
    (hlast : ∀ g : List α, gs.getLast? = some g → g ≠ []) :
    gs.length ≤ sumLen gs := by
  by_cases hgs : gs = []
  · subst hgs
    simp [sumLen]
  · have hLpos : 0 < gs.length := List.length_pos_of_ne_nil hgs
    obtain ⟨gL, hgL⟩ := Option.isSome_iff_exists.mp
      (List.getLast?_isSome.mpr hgs)
    have hi : gs[gs.length - 1]? = some gL := by
      rw [← List.getLast?_eq_getElem?]
      exact hgL
    have hsum := (sumLen_at hfull (gs.length - 1) gL hi).2 (by omega)
    have ht1 : 1 ≤ gL.length :=
      Nat.one_le_iff_ne_zero.mpr
        (fun h0 => hlast gL hgL (List.eq_nil_of_length_eq_zero h0))
    have h2 : gs.length - 1 ≤ (gs.length - 1) * C :=
      Nat.le_mul_of_pos_right _ (by omega)
    omega

/-- A non-consuming iterator never changes the memory it walks. -/
theorem IterStateD_mem {α : Type} {C : Nat} {m0 : Mem α}
    {cids : List Nat} {gs : List (List α)} {endp : Option Ptr}
    {rc : Option Nat} {k : Nat} {it : IterPtr} {m : Mem α}
    (hst : IterStateD C false m0 cids gs endp rc k it m) : m = m0 := by
  obtain ⟨-, -, hbr⟩ := hst
  rcases hbr with h | h
  · exact h.2.2.2.2
  · obtain ⟨i, j, c, g, -, -, -, -, -, -, hm⟩ := h
    exact hm

/-! ### The claims -/

/-- C9: with chunk capacity `C = 0`, every attempt to allocate an item
    panics inside `ensure_free_space` before any memory is touched: the
    configuration error is caught before any allocation is attempted, and
    no recoverable state is produced. -/
theorem claim_C9 {α : Type} (sp ok : Bool) (a : Arena) (m : Mem α) (v : α) :
    tryAllocPtr 0 sp ok a m v = .panic ∧
    ensureFreeSpace 0 ok a m = .panic := by
  have h : ensureFreeSpace 0 ok a m = .panic := by
    unfold ensureFreeSpace
    rw [if_pos rfl]
  refine ⟨?_, h⟩
  unfold tryAllocPtr
  rw [h]

/-- C6: allocating `N` items into a fresh arena of capacity `C ≥ 1`
    performs exactly `ceil(N/C)` chunk-allocation events: the chain has
    that many chunks and the memory's chunk count grows by exactly that
    number (`0` allocations cause `0` chunk allocations). -/
theorem claim_C6 {α : Type} {C : Nat} (hC : 1 ≤ C) (sp : Bool) (vs : List α)
    (m : Mem α) :
    ∃ ps a1 m1 cids1 gs1,
      allocAll C sp vs (Arena.new C) m = some (ps, a1, m1) ∧
      RepW C a1 m1 vs cids1 gs1 ∧
      cids1.length = ceilDiv vs.length C ∧
      m1.chunks.length = m.chunks.length + ceilDiv vs.length C := by
  obtain ⟨ps, a1, m1, cids1, gs1, hrun, hrep1, hpslen, ⟨e, he, hlen⟩, -, -, -,
    -, -, -, -, -⟩ := allocAll_rep hC sp vs (RepW_new C m)
  rw [List.nil_append] at hrep1
  obtain ⟨hchain, hflat, hnd, hhead, htail, htlen, hlenA, hlast⟩ := hrep1
  have hclen := chainSeg_length hchain
  have hfull : ∀ (i : Nat) (g : List α), i + 1 < gs1.length →
      gs1[i]? = some g → g.length = C :=
    fun i g hi hg => (chainSeg_groups_le hchain i g hg).2 hi
  have hbound : ∀ (i : Nat) (g : List α), gs1[i]? = some g → g.length ≤ C :=
    fun i g hg => (chainSeg_groups_le hchain i g hg).1
  have hceil : cids1.length = ceilDiv vs.length C := by
    rw [hclen, groups_length_eq_ceil hC hfull hbound hlast, sumLen_flatten,
      hflat]
  refine ⟨ps, a1, m1, cids1, gs1, hrun,
    ⟨hchain, hflat, hnd, hhead, htail, htlen, hlenA, hlast⟩, hceil, ?_⟩
  rw [hlen, ← hceil, he]
  simp

/-- C1: for every capacity `C ≥ 1` and every sequence of values allocated
    into a fresh arena (any allocation flavour: `sp` covers
    `alloc_shared`'s positions mode, and all flavours delegate to
    `try_alloc_ptr`), `len()` equals the number of allocations, and
    iterating from the default start yields exactly those values in
    allocation order (for both the borrowing and the consuming iterator). -/
theorem claim_C1 {α : Type} {C : Nat} (hC : 1 ≤ C) (sp DROP : Bool)
    (vs : List α) (m : Mem α) {fuel : Nat} (hfuel : vs.length < fuel) :
    ∃ ps a1 m1 it1 mf,
      allocAll C sp vs (Arena.new C) m = some (ps, a1, m1) ∧
      a1.len = vs.length ∧
      ps.length = vs.length ∧
      iterRun C DROP fuel m1 (arenaIter a1) =
        (ps.zip (vs.map some), it1, mf) ∧
      (ps.zip (vs.map some)).map Prod.snd = vs.map some := by
  obtain ⟨ps, a1, m1, cids1, gs1, hrun, hrep1, hpslen, -, -, -, hpairs, -, -,
    -, -, -⟩ := allocAll_rep hC sp vs (RepW_new C m)
  rw [List.nil_append] at hrep1
  obtain ⟨hchain, hflat, hnd, hhead, htail, htlen, hlenA, hlast⟩ := hrep1
  have hrepw : RepW C a1 m1 vs cids1 gs1 :=
    ⟨hchain, hflat, hnd, hhead, htail, htlen, hlenA, hlast⟩
  have hpairs1 : chainPairs cids1 gs1 = ps.zip (vs.map some) := by
    rw [hpairs]
    rfl
  have hsum : sumLen gs1 = vs.length := by
    rw [sumLen_flatten, hflat]
  obtain ⟨it1, hiter⟩ := iterRun_complete hC DROP hchain hnd hlast
    (RepW_endOk hrepw) fuel (IterState_start DROP hrepw) (by omega)
    (by omega)
  rw [List.drop_zero, hpairs1] at hiter
  refine ⟨ps, a1, m1, it1, _, hrun, hlenA, hpslen, hiter, ?_⟩
  rw [← hpairs1, chainPairs_snd (chainSeg_length hchain), hflat]

/-- C2: destroying a scope-bound arena holding allocated items runs each
    item's destructor exactly once: the `drop_in_place`d slots are exactly
    the allocated slots, in order and without repetition — nothing is
    destroyed twice and nothing is omitted. -/
theorem claim_C2 {α : Type} {C : Nat} (hC : 1 ≤ C) (sp : Bool) (vs : List α)
    (m : Mem α) {fuel : Nat} (hfuel : vs.length < fuel) :
    ∃ ps a1 m1,
      allocAll C sp vs (Arena.new C) m = some (ps, a1, m1) ∧
      ps.length = vs.length ∧
      (arenaDrop C fuel a1 m1).1 = ps ∧
      ps.Nodup := by
  obtain ⟨ps, a1, m1, cids1, gs1, hrun, hrep1, hpslen, -, -, -, hpairs, -, -,
    -, -, -⟩ := allocAll_rep hC sp vs (RepW_new C m)
  rw [List.nil_append] at hrep1
  obtain ⟨hchain, hflat, hnd, hhead, htail, htlen, hlenA, hlast⟩ := hrep1
  have hrepw : RepW C a1 m1 vs cids1 gs1 :=
    ⟨hchain, hflat, hnd, hhead, htail, htlen, hlenA, hlast⟩
  have hclen := chainSeg_length hchain
  have hpairs1 : chainPairs cids1 gs1 = ps.zip (vs.map some) := by
    rw [hpairs]
    rfl
  have hfull : ∀ (i : Nat) (g : List α), i + 1 < gs1.length →
      gs1[i]? = some g → g.length = C :=
    fun i g hi hg => (chainSeg_groups_le hchain i g hg).2 hi
  have hsum : sumLen gs1 = vs.length := by
    rw [sumLen_flatten, hflat]
  have hcfuel : cids1.length ≤ fuel := by
    have := length_le_sumLen hC hfull hlast
    omega
  obtain ⟨a2, hdrop, -, -⟩ := arenaDrop_spec hrepw hcfuel
  have hfst : (chainPairs cids1 gs1).map Prod.fst = ps := by
    rw [hpairs1]
    apply List.map_fst_zip
    simp [hpslen]
  refine ⟨ps, a1, m1, hrun, hpslen, ?_, ?_⟩
  · rw [hdrop, hfst]
  · rw [← hfst]
    exact chainPairs_fst_nodup hnd

/-- C3: for a manually-released arena, ordinary destruction of the handle
    runs no item destructor and frees nothing (by-design leak-on-drop:
    `ManuallyDropArena` has no `Drop` impl); calling `release`
    (`ManuallyDropArena::drop`) destroys each allocated slot exactly once
    and resets the handle to the empty state; and releasing an
    already-empty or already-released arena is a no-op. -/
theorem claim_C3 {α : Type} {C : Nat} (hC : 1 ≤ C) (sp : Bool) (vs : List α)
    (m : Mem α) {fuel : Nat} (hfuel : vs.length < fuel) :
    ∃ ps a1 m1,
      allocAll C sp vs (Arena.new C) m = some (ps, a1, m1) ∧
      manualHandleForget a1 m1 = ([], m1) ∧
      ∃ a2 mf,
        arenaDrop C fuel a1 m1 = (ps, a2, mf) ∧
        ps.length = vs.length ∧ ps.Nodup ∧
        (vs ≠ [] → a2 = Arena.new C) ∧
        arenaDrop C fuel a2 mf = ([], a2, mf) ∧
        arenaDrop C fuel (Arena.new C) mf = ([], Arena.new C, mf) := by
  obtain ⟨ps, a1, m1, cids1, gs1, hrun, hrep1, hpslen, -, -, -, hpairs, -, -,
    -, -, -⟩ := allocAll_rep hC sp vs (RepW_new C m)
  rw [List.nil_append] at hrep1
  obtain ⟨hchain, hflat, hnd, hhead, htail, htlen, hlenA, hlast⟩ := hrep1
  have hrepw : RepW C a1 m1 vs cids1 gs1 :=
    ⟨hchain, hflat, hnd, hhead, htail, htlen, hlenA, hlast⟩
  have hclen := chainSeg_length hchain
  have hpairs1 : chainPairs cids1 gs1 = ps.zip (vs.map some) := by
    rw [hpairs]
    rfl
  have hfull : ∀ (i : Nat) (g : List α), i + 1 < gs1.length →
      gs1[i]? = some g → g.length = C :=
    fun i g hi hg => (chainSeg_groups_le hchain i g hg).2 hi
  have hsum : sumLen gs1 = vs.length := by
    rw [sumLen_flatten, hflat]
  have hgssum := length_le_sumLen hC hfull hlast
  have hcfuel : cids1.length ≤ fuel := by omega
  obtain ⟨a2, hdrop, hempty, hnonempty⟩ := arenaDrop_spec hrepw hcfuel
  have hfst : (chainPairs cids1 gs1).map Prod.fst = ps := by
    rw [hpairs1]
    apply List.map_fst_zip
    simp [hpslen]
  have hcne : vs ≠ [] → cids1 ≠ [] := by
    intro hv hc
    rw [hc] at hclen
    have hg0 : gs1 = [] := List.eq_nil_of_length_eq_zero hclen.symm
    rw [hg0] at hsum
    exact hv (List.eq_nil_of_length_eq_zero (by simpa [sumLen] using hsum.symm))
  have hhead2 : a2.head = none := by
    by_cases hv : vs = []
    · have hc0 : cids1 = [] := by
        have h0 : sumLen gs1 = 0 := by rw [hsum, hv]; rfl
        have hg0 : cids1.length = 0 := by omega
        exact List.eq_nil_of_length_eq_zero hg0
      rw [hempty hc0, hhead, hc0]
      rfl
    · rw [hnonempty (hcne hv)]
      rfl
  refine ⟨ps, a1, m1, hrun, rfl, a2, m1.freeAll cids1, ?_, hpslen, ?_,
    fun hv => hnonempty (hcne hv), ?_, rfl⟩
  · rw [hdrop, hfst]
  · rw [← hfst]
    exact chainPairs_fst_nodup hnd
  · unfold arenaDrop
    rw [hhead2]

/-- The spec's claimed tail invariant, amended: `tail_len` never exceeds
    `C`, and the tail reference is absent only when the arena is empty
    **or** when `tail_len = C` (the state left behind by a failed chunk
    allocation in `try_alloc`, which takes the tail reference before the
    fallible `ChunkRef::new` call).  This definition follows the amended
    spec wording, to be compared with the embedded operations. -/
def TailInv (C : Nat) (a : Arena) : Prop :=
  a.tail_len ≤ C ∧ (a.tail = none → a.len = 0 ∨ a.tail_len = C)

/-- The spec's original wording: tail absent only when the count is 0. -/
def TailInvStrict (a : Arena) : Prop :=
  a.tail = none → a.len = 0

/-- C7 counterexample: the spec's wording "the tail chunk is absent only
    when the total item count is 0" is violated by the state a failed
    chunk allocation in `try_alloc` leaves behind: with `C = 1`, allocate
    one item, then fail a `try_alloc` — the resulting arena has no tail
    reference yet `len = 1`.  The amended invariant `TailInv` still
    holds there. -/
theorem claim_C7_counterexample :
    tryAllocPtr 1 false true (Arena.new 1) (Mem.empty : Mem Nat) 10 =
      .ok ⟨0, 0⟩ ⟨none, some 0, some 0, 1, 1⟩ ⟨[some ⟨[some 10], none⟩], 0⟩ ∧
    tryAllocPtr 1 false false ⟨none, some 0, some 0, 1, 1⟩
      (⟨[some ⟨[some 10], none⟩], 0⟩ : Mem Nat) 20 =
      .fail ⟨none, some 0, none, 1, 1⟩ ⟨[some ⟨[some 10], none⟩], 0⟩ ∧
    ¬ TailInvStrict ⟨none, some 0, none, 1, 1⟩ ∧
    TailInv 1 ⟨none, some 0, none, 1, 1⟩ := by
  refine ⟨rfl, rfl, ?_, ?_⟩
  · intro h
    unfold TailInvStrict at h
    exact absurd (h rfl) (by decide)
  · unfold TailInv
    exact ⟨by decide, fun _ => Or.inr rfl⟩

/-- C7 (amended): `TailInv` — `tail_len ≤ C`, and the tail reference is
    absent only when the arena is empty or `tail_len = C` — holds after
    construction and is preserved by both outcomes of `try_alloc_ptr`
    (hence by `alloc`, `try_alloc` and `alloc_shared` in every flavour)
    and by release; iteration, snapshot and resume never modify the arena.
    In every represented state, additionally, every chunk except possibly
    the tail is fully occupied (`C` initialized slots) and `TailInv`
    holds. -/
theorem claim_C7 {α : Type} {C : Nat} (hC : 1 ≤ C) :
    TailInv C (Arena.new C) ∧
    (∀ (sp ok : Bool) (a : Arena) (m : Mem α) (v : α), TailInv C a →
      (∀ p a1 m1, tryAllocPtr C sp ok a m v = .ok p a1 m1 → TailInv C a1) ∧
      (∀ a1 m1, tryAllocPtr C sp ok a m v = .fail a1 m1 → TailInv C a1)) ∧
    (∀ (fuel : Nat) (a : Arena) (m : Mem α), TailInv C a →
      TailInv C (arenaDrop C fuel a m).2.1) ∧
    (∀ (a : Arena) (m : Mem α) (xs : List α) (cids : List Nat)
      (gs : List (List α)), RepW C a m xs cids gs →
      (∀ (i : Nat) (g : List α), i + 1 < gs.length → gs[i]? = some g →
        g.length = C) ∧ TailInv C a) := by
  have hnew : TailInv C (Arena.new C) := ⟨Nat.le_refl C, fun _ => Or.inl rfl⟩
  have hC0 : ¬ C = 0 := by omega
  refine ⟨hnew, ?_, ?_, ?_⟩
  · intro sp ok a m v hinv
    constructor
    · intro p a1 m1 heq
      by_cases hlt : a.tail_len < C
      · unfold tryAllocPtr at heq
        rw [ensureFreeSpace_hasRoom ok m hC0 hlt] at heq
        dsimp only at heq
        revert heq
        cases hat : a.tail with
        | none =>
          intro heq
          exact AllocResult.noConfusion heq
        | some t =>
          intro heq
          dsimp only at heq
          injection heq with h1 h2 h3
          subst h2
          refine ⟨?_, fun h2 => ?_⟩
          · show a.tail_len + 1 ≤ C
            omega
          · simp at h2
      · cases ok with
        | false =>
          unfold tryAllocPtr at heq
          rw [ensureFreeSpace_noRoom m hC0 hlt] at heq
          exact AllocResult.noConfusion heq
        | true =>
          unfold tryAllocPtr at heq
          rw [ensureFreeSpace_grow m hC0 hlt] at heq
          dsimp only at heq
          injection heq with h1 h2 h3
          subst h2
          refine ⟨?_, fun h2 => ?_⟩
          · show 0 + 1 ≤ C
            omega
          · simp at h2
    · intro a1 m1 heq
      by_cases hlt : a.tail_len < C
      · unfold tryAllocPtr at heq
        rw [ensureFreeSpace_hasRoom ok m hC0 hlt] at heq
        dsimp only at heq
        revert heq
        cases hat : a.tail with
        | none =>
          intro heq
          exact AllocResult.noConfusion heq
        | some t =>
          intro heq
          dsimp only at heq
          exact AllocResult.noConfusion heq
      · cases ok with
        | true =>
          unfold tryAllocPtr at heq
          rw [ensureFreeSpace_grow m hC0 hlt] at heq
          dsimp only at heq
          exact AllocResult.noConfusion heq
        | false =>
          unfold tryAllocPtr at heq
          rw [ensureFreeSpace_noRoom m hC0 hlt] at heq
          injection heq with h1 h2
          subst h1
          refine ⟨hinv.1, fun _ => Or.inr ?_⟩
          show a.tail_len = C
          have hub := hinv.1
          omega
  · intro fuel a m hinv
    unfold arenaDrop
    cases hh : a.head with
    | none => exact hinv
    | some h => exact hnew
  · intro a m xs cids gs hrep
    obtain ⟨hchain, hflat, hnd, hhead, htail, htlen, hlen, hlast⟩ := hrep
    have hclen := chainSeg_length hchain
    refine ⟨fun i g hi hg => (chainSeg_groups_le hchain i g hg).2 hi, ?_, ?_⟩
    · rw [htlen]
      unfold lastLen
      cases hq : gs.getLast? with
      | none => exact Nat.le_refl C
      | some g =>
        have hgi : gs[gs.length - 1]? = some g := by
          rw [← List.getLast?_eq_getElem?]
          exact hq
        exact (chainSeg_groups_le hchain _ g hgi).1
    · intro htn
      left
      rw [htail] at htn
      have hc0 : cids = [] := List.getLast?_eq_none_iff.mp htn
      rw [hc0] at hclen
      have hg0 : gs = [] := List.eq_nil_of_length_eq_zero hclen.symm
      rw [hlen, ← hflat, hg0]
      rfl

/-- C10: a failed chunk allocation in `try_alloc` does NOT leave the
    arena's observable state unchanged.  With `C = 1`: allocate `10`
    (succeeds), fail a `try_alloc` of `20` (heap failure — the call takes
    `self.tail` before the fallible `ChunkRef::new` and never restores
    it), then allocate `30` (succeeds).  Now `len = 2`, but the new chunk
    was never linked to the old tail: iteration from the head yields only
    `10`, and release destroys only the first slot and frees only the
    first chunk — the chunk holding `30` is leaked. -/
theorem claim_C10 :
    tryAllocPtr 1 false true (Arena.new 1) (Mem.empty : Mem Nat) 10 =
      .ok ⟨0, 0⟩ ⟨none, some 0, some 0, 1, 1⟩
        ⟨[some ⟨[some 10], none⟩], 0⟩ ∧
    tryAllocPtr 1 false false ⟨none, some 0, some 0, 1, 1⟩
      (⟨[some ⟨[some 10], none⟩], 0⟩ : Mem Nat) 20 =
      .fail ⟨none, some 0, none, 1, 1⟩ ⟨[some ⟨[some 10], none⟩], 0⟩ ∧
    tryAllocPtr 1 false true ⟨none, some 0, none, 1, 1⟩
      (⟨[some ⟨[some 10], none⟩], 0⟩ : Mem Nat) 30 =
      .ok ⟨1, 0⟩ ⟨none, some 0, some 1, 1, 2⟩
        ⟨[some ⟨[some 10], none⟩, some ⟨[some 30], none⟩], 0⟩ ∧
    (⟨none, some 0, some 1, 1, 2⟩ : Arena).len = 2 ∧
    (iterRun 1 false 5
      (⟨[some ⟨[some 10], none⟩, some ⟨[some 30], none⟩], 0⟩ : Mem Nat)
      (arenaIter ⟨none, some 0, some 1, 1, 2⟩)).1.map Prod.snd =
      [some 10] ∧
    (arenaDrop 1 5 (⟨none, some 0, some 1, 1, 2⟩ : Arena)
      (⟨[some ⟨[some 10], none⟩, some ⟨[some 30], none⟩], 0⟩ : Mem Nat)).1 =
      [⟨0, 0⟩] ∧
    ((arenaDrop 1 5 (⟨none, some 0, some 1, 1, 2⟩ : Arena)
      (⟨[some ⟨[some 10], none⟩, some ⟨[some 30], none⟩], 0⟩
        : Mem Nat)).2.2).getChunk 1 = some ⟨[some 30], none⟩ := by
  exact ⟨rfl, rfl, rfl, rfl, rfl, rfl, rfl⟩

/-- C4: resuming a position (`iter_ptr_at`) succeeds exactly when the
    position's identity-token copy is absent or carries the same token id
    (the model of `Arc::ptr_eq` between live arcs) as the arena's current
    token, and otherwise fails fast with the "position is not part of this
    arena" panic (`none`); in particular a position from arena `A` fails
    against a different arena `B` built afterwards, and against `A` after
    release and reuse, rather than resuming with incorrect data. -/
theorem claim_C4 {α : Type} {C : Nat} (hC : 1 ≤ C) (vs vs' : List α)
    (hvs : vs ≠ []) (hvs' : vs' ≠ []) (m : Mem α) {fuel : Nat}
    (hfuel : vs.length < fuel) :
    (∀ (a : Arena) (pos : Position) (mm : Mem α),
      (iterPtrAt a pos mm).isSome = true ↔
        (pos.rc = none ∨ ∃ r, pos.rc = some r ∧ a.rc = some r)) ∧
    ∃ ps a1 m1,
      allocAll C true vs (Arena.new C) m = some (ps, a1, m1) ∧
      ∀ pos : Position, pos.rc = a1.rc →
        (iterPtrAt a1 pos m1).isSome = true ∧
        (∀ ps' b1 m2,
          allocAll C true vs' (Arena.new C) m1 = some (ps', b1, m2) →
          iterPtrAt b1 pos m2 = none) ∧
        (∀ a2 mf, (arenaDrop C fuel a1 m1).2 = (a2, mf) →
          ∀ ps2 a3 m3, allocAll C true vs' a2 mf = some (ps2, a3, m3) →
          iterPtrAt a3 pos m3 = none) := by
  have hval : ∀ (o n : Option Nat), validRcUpdate o n = true ↔
      (o = none ∨ ∃ r, o = some r ∧ n = some r) := by
    intro o n
    cases o with
    | none => simp [validRcUpdate]
    | some r =>
      cases n with
      | none => simp [validRcUpdate]
      | some r2 =>
        simp only [validRcUpdate, beq_iff_eq]
        constructor
        · intro h
          exact Or.inr ⟨r, rfl, by rw [h]⟩
        · intro h
          rcases h with h | ⟨r3, h1, h2⟩
          · exact absurd h (by simp)
          · have e1 := Option.some.inj h1
            have e2 := Option.some.inj h2
            omega
  have hsome : ∀ (a : Arena) (pos : Position) (mm : Mem α),
      (iterPtrAt a pos mm).isSome = validRcUpdate pos.rc a.rc := by
    intro a pos mm
    unfold iterPtrAt
    by_cases hv : validRcUpdate pos.rc a.rc = true
    · rw [if_pos hv, hv]
      rfl
    · rw [Bool.not_eq_true] at hv
      rw [if_neg (by rw [hv]; exact Bool.false_ne_true), hv]
      rfl
  have hnone : ∀ (a : Arena) (pos : Position) (mm : Mem α),
      validRcUpdate pos.rc a.rc = false → iterPtrAt a pos mm = none := by
    intro a pos mm hv
    unfold iterPtrAt
    rw [if_neg (by rw [hv]; exact Bool.false_ne_true)]
  refine ⟨fun a pos mm => by rw [hsome a pos mm]; exact hval _ _, ?_⟩
  obtain ⟨ps, a1, m1, cids1, gs1, hrun, hrep1, hpslen, -, -, -, -, -, -, -,
    hrcnone, hrcsome⟩ := allocAll_rep hC true vs (RepW_new C m)
  obtain ⟨rA, hrA, hrAlo, hrAhi⟩ : ∃ r, a1.rc = some r ∧
      m.rcCount ≤ r ∧ r < m1.rcCount := by
    rcases hrcnone rfl with h0 | h
    · have := hrcsome rfl hvs
      rw [h0] at this
      simp at this
    · exact h
  rw [List.nil_append] at hrep1
  obtain ⟨hchain, hflat, hnd, hhead, htail, htlen, hlenA, hlast⟩ := hrep1
  have hrepw : RepW C a1 m1 vs cids1 gs1 :=
    ⟨hchain, hflat, hnd, hhead, htail, htlen, hlenA, hlast⟩
  have hclen := chainSeg_length hchain
  have hfull : ∀ (i : Nat) (g : List α), i + 1 < gs1.length →
      gs1[i]? = some g → g.length = C :=
    fun i g hi hg => (chainSeg_groups_le hchain i g hg).2 hi
  have hsum : sumLen gs1 = vs.length := by
    rw [sumLen_flatten, hflat]
  have hcfuel : cids1.length ≤ fuel := by
    have := length_le_sumLen hC hfull hlast
    omega
  obtain ⟨a2v, hdrop, -, hnonempty⟩ := arenaDrop_spec hrepw hcfuel
  have hcne : cids1 ≠ [] := by
    intro hc
    rw [hc] at hclen
    have hg0 : gs1 = [] := List.eq_nil_of_length_eq_zero hclen.symm
    rw [hg0] at hsum
    exact hvs (List.eq_nil_of_length_eq_zero (by simpa [sumLen] using
      hsum.symm))
  have ha2v : a2v = Arena.new C := hnonempty hcne
  refine ⟨ps, a1, m1, hrun, ?_⟩
  intro pos hpos
  refine ⟨?_, ?_, ?_⟩
  · rw [hsome, hpos, hrA]
    simp [validRcUpdate]
  · intro ps' b1 m2 hrun2
    obtain ⟨ps2, b2, m2b, cids2, gs2, hrun2', -, -, -, -, -, -, -, -, -,
      hrcnone2, hrcsome2⟩ := allocAll_rep hC true vs' (RepW_new C m1)
    have h3 := Option.some.inj (hrun2.symm.trans hrun2')
    have hb : b1 = b2 := congrArg (fun x => x.2.1) h3
    rcases hrcnone2 rfl with h0 | ⟨rB, hrB, hrBlo, -⟩
    · have h4 := hrcsome2 rfl hvs'
      rw [h0] at h4
      simp at h4
    · apply hnone
      rw [hpos, hrA, hb, hrB]
      simp only [validRcUpdate, beq_eq_false_iff_ne, ne_eq]
      omega
  · intro a2 mf heq
    rw [hdrop] at heq
    have ha2 : a2 = Arena.new C := by
      rw [← ha2v]
      exact (congrArg Prod.fst heq).symm
    have hmf : mf = m1.freeAll cids1 := (congrArg Prod.snd heq).symm
    intro ps2 a3 m3 hrun3
    obtain ⟨ps3, a3b, m3b, cids3, gs3, hrun3', -, -, -, -, -, -, -, -, -,
      hrcnone3, hrcsome3⟩ := allocAll_rep hC true vs' (RepW_new C mf)
    rw [ha2] at hrun3
    have h3 := Option.some.inj (hrun3.symm.trans hrun3')
    have hb : a3 = a3b := congrArg (fun x => x.2.1) h3
    rcases hrcnone3 rfl with h0 | ⟨rB, hrB, hrBlo, -⟩
    · have h4 := hrcsome3 rfl hvs'
      rw [h0] at h4
      simp at h4
    · apply hnone
      rw [hpos, hrA, hb, hrB]
      simp only [validRcUpdate, beq_eq_false_iff_ne, ne_eq]
      have hmfrc : mf.rcCount = m1.rcCount := by
        rw [hmf]
        exact freeAll_rcCount cids1 m1
      omega

/-- C5: on a positions-enabled arena with the values `vs` allocated, take
    a snapshot after a (non-consuming) iterator has yielded `k ≤ |vs|` of
    them, then allocate `ws` further values; resuming from the snapshot
    succeeds and yields exactly `|vs| - k + |ws|` items — the remaining
    items in allocation order. -/
theorem claim_C5 {α : Type} {C : Nat} (hC : 1 ≤ C) (vs ws : List α)
    (k : Nat) (hk : k ≤ vs.length) (m : Mem α) {fuel : Nat}
    (hfuel : vs.length + ws.length < fuel) :
    ∃ ps a1 m1 itk ps' a2 m2 it' res itf mf,
      allocAll C true vs (Arena.new C) m = some (ps, a1, m1) ∧
      iterRun C false k m1 (arenaIter a1) =
        ((ps.zip (vs.map some)).take k, itk, m1) ∧
      allocAll C true ws a1 m1 = some (ps', a2, m2) ∧
      iterPtrAt a2 itk.asPosition m2 = some it' ∧
      iterRun C false fuel m2 it' = (res, itf, mf) ∧
      res = ((ps ++ ps').zip ((vs ++ ws).map some)).drop k ∧
      res.length = vs.length - k + ws.length := by
  obtain ⟨ps, a1, m1, cids1, gs1, hrun1, hrep1, hpslen1, -, -, -, hpairs1,
    -, -, -, -, -⟩ := allocAll_rep hC true vs (RepW_new C m)
  rw [List.nil_append] at hrep1
  obtain ⟨hchain1, hflat1, hnd1, hhead1, htail1, htlen1, hlenA1, hlast1⟩ :=
    hrep1
  have hrepw1 : RepW C a1 m1 vs cids1 gs1 :=
    ⟨hchain1, hflat1, hnd1, hhead1, htail1, htlen1, hlenA1, hlast1⟩
  have hpairseq1 : chainPairs cids1 gs1 = ps.zip (vs.map some) := by
    rw [hpairs1]
    rfl
  have hsum1 : sumLen gs1 = vs.length := by
    rw [sumLen_flatten, hflat1]
  obtain ⟨itk, mk, hrunk, hstk⟩ := iterRun_steps hC false hchain1 hnd1
    hlast1 (RepW_endOk hrepw1) k (IterState_start false hrepw1)
    (by omega)
  rw [Nat.zero_add] at hstk
  have hmk : mk = m1 := IterStateD_mem hstk
  rw [hmk] at hrunk hstk
  rw [List.drop_zero, hpairseq1] at hrunk
  obtain ⟨ps', a2, m2, cids2, gs2, hrun2, hrep2, hpslen2, ⟨e, he, -⟩, -,
    hmono, hpairs2, -, hrcpres, -, -, -⟩ := allocAll_rep hC true ws hrepw1
  obtain ⟨hchain2, hflat2, hnd2, hhead2, htail2, htlen2, hlenA2, hlast2⟩ :=
    hrep2
  have hrepw2 : RepW C a2 m2 (vs ++ ws) cids2 gs2 :=
    ⟨hchain2, hflat2, hnd2, hhead2, htail2, htlen2, hlenA2, hlast2⟩
  have hclen2 := chainSeg_length hchain2
  have hsum2 : sumLen gs2 = vs.length + ws.length := by
    rw [sumLen_flatten, hflat2, List.length_append]
  have hitkrc : itk.rc = a1.rc := hstk.2.1
  have hvalid : validRcUpdate itk.asPosition.rc a2.rc = true := by
    show validRcUpdate itk.rc a2.rc = true
    rw [hitkrc]
    cases hq : a1.rc with
    | none => rfl
    | some r =>
      rw [hrcpres r hq]
      simp [validRcUpdate]
  have hresume : iterPtrAt a2 itk.asPosition m2 =
      some ⟨(itk.chunk.map some).getD a2.head, itk.index, a2.endPtr,
        a2.rc⟩ := by
    unfold iterPtrAt
    rw [if_pos hvalid]
    rfl
  have hst' := @IterState_resume α C m1 m2 cids1 e cids2 gs1 gs2 a1.endPtr
    a1.rc a2 he hclen2 hhead2 hmono k itk hstk
  obtain ⟨itf, hrunf⟩ := iterRun_complete hC false hchain2 hnd2 hlast2
    (RepW_endOk hrepw2) fuel hst' (by omega) (by omega)
  have hzip : chainPairs cids2 gs2 =
      (ps ++ ps').zip ((vs ++ ws).map some) := by
    rw [hpairs2, hpairseq1, List.map_append,
      @List.zip_append Ptr (Option α) ps ps' (vs.map some) (ws.map some)
        (by simp [hpslen1])]
  refine ⟨ps, a1, m1, itk, ps', a2, m2,
    ⟨(itk.chunk.map some).getD a2.head, itk.index, a2.endPtr, a2.rc⟩,
    (chainPairs cids2 gs2).drop k, itf, m2.freeAll [],
    hrun1, hrunk, hrun2, hresume, hrunf, ?_, ?_⟩
  · rw [hzip]
  · rw [List.length_drop, chainPairs_length hclen2, hsum2]
    omega

/-- C8: an arena holding the values `vs`, turned into a consuming
    iterator and abandoned after yielding `j ≤ |vs|` owned items: the
    iterator's `Drop` impl consumes the remainder, so each of the
    `|vs| - j` unvisited items is destroyed exactly once (the remainder of
    the expected sequence, pairwise-distinct slots), every chunk of the
    arena is freed, and the items already handed to the caller are not
    visited again. -/
theorem claim_C8 {α : Type} {C : Nat} (hC : 1 ≤ C) (vs : List α) (j : Nat)
    (hj : j ≤ vs.length) (m : Mem α) {fuel : Nat}
    (hfuel : vs.length - j < fuel) :
    ∃ ps a1 m1 cids1 itj mj itf,
      allocAll C false vs (Arena.new C) m = some (ps, a1, m1) ∧
      iterRun C true j m1 (arenaIter a1) =
        ((ps.zip (vs.map some)).take j, itj, mj) ∧
      iterRun C true fuel mj itj =
        ((ps.zip (vs.map some)).drop j, itf, m1.freeAll cids1) ∧
      (∀ c ∈ cids1, (m1.freeAll cids1).getChunk c = none) ∧
      ps.Nodup := by
  obtain ⟨ps, a1, m1, cids1, gs1, hrun1, hrep1, hpslen1, -, -, -, hpairs1,
    -, -, -, -, -⟩ := allocAll_rep hC false vs (RepW_new C m)
  rw [List.nil_append] at hrep1
  obtain ⟨hchain1, hflat1, hnd1, hhead1, htail1, htlen1, hlenA1, hlast1⟩ :=
    hrep1
  have hrepw1 : RepW C a1 m1 vs cids1 gs1 :=
    ⟨hchain1, hflat1, hnd1, hhead1, htail1, htlen1, hlenA1, hlast1⟩
  have hpairseq1 : chainPairs cids1 gs1 = ps.zip (vs.map some) := by
    rw [hpairs1]
    rfl
  have hsum1 : sumLen gs1 = vs.length := by
    rw [sumLen_flatten, hflat1]
  obtain ⟨itj, mj, hrunj, hstj⟩ := iterRun_steps hC true hchain1 hnd1
    hlast1 (RepW_endOk hrepw1) j (IterState_start true hrepw1) (by omega)
  rw [Nat.zero_add] at hstj
  rw [List.drop_zero, hpairseq1] at hrunj
  obtain ⟨itf, hrunf⟩ := iterRun_complete hC true hchain1 hnd1 hlast1
    (RepW_endOk hrepw1) fuel hstj (by omega) (by omega)
  rw [hpairseq1] at hrunf
  have hfst : (chainPairs cids1 gs1).map Prod.fst = ps := by
    rw [hpairseq1]
    apply List.map_fst_zip
    simp [hpslen1]
  refine ⟨ps, a1, m1, cids1, itj, mj, itf, hrun1, hrunj, ?_, ?_, ?_⟩
  · simpa using hrunf
  · intro c hc
    rw [getChunk_freeAll, if_pos hc]
  · rw [← hfst]
    exact chainPairs_fst_nodup hnd1

/-! ### Concrete witnesses -/

/-- Witness for C1 at `C = 2`, `vs = [10, 20, 30]`. -/
theorem claim_C1_witness :
    1 ≤ 2 ∧ (3 : Nat) < 4 ∧
    ∃ ps a1 m1 it1 mf,
      allocAll 2 false [10, 20, 30] (Arena.new 2) (Mem.empty : Mem Nat) =
        some (ps, a1, m1) ∧
      a1.len = 3 ∧ ps.length = 3 ∧
      iterRun 2 false 4 m1 (arenaIter a1) =
        (ps.zip ([10, 20, 30].map some), it1, mf) ∧
      (ps.zip ([10, 20, 30].map some)).map Prod.snd =
        [10, 20, 30].map some :=
  ⟨by decide, by decide,
   @claim_C1 Nat 2 (by decide) false false [10, 20, 30] Mem.empty 4
     (by decide)⟩

/-- Witness for C2 at `C = 2`, `vs = [10, 20, 30]`. -/
theorem claim_C2_witness :
    1 ≤ 2 ∧ (3 : Nat) < 4 ∧
    ∃ ps a1 m1,
      allocAll 2 false [10, 20, 30] (Arena.new 2) (Mem.empty : Mem Nat) =
        some (ps, a1, m1) ∧
      ps.length = 3 ∧
      (arenaDrop 2 4 a1 m1).1 = ps ∧
      ps.Nodup :=
  ⟨by decide, by decide,
   @claim_C2 Nat 2 (by decide) false [10, 20, 30] Mem.empty 4 (by decide)⟩

/-- Witness for C3 at `C = 2`, `vs = [10, 20, 30]`. -/
theorem claim_C3_witness :
    1 ≤ 2 ∧ (3 : Nat) < 4 ∧
    ∃ ps a1 m1,
      allocAll 2 false [10, 20, 30] (Arena.new 2) (Mem.empty : Mem Nat) =
        some (ps, a1, m1) ∧
      manualHandleForget a1 m1 = ([], m1) ∧
      ∃ a2 mf,
        arenaDrop 2 4 a1 m1 = (ps, a2, mf) ∧
        ps.length = 3 ∧ ps.Nodup ∧
        ([10, 20, 30] ≠ ([] : List Nat) → a2 = Arena.new 2) ∧
        arenaDrop 2 4 a2 mf = ([], a2, mf) ∧
        arenaDrop 2 4 (Arena.new 2) mf = ([], Arena.new 2, mf) :=
  ⟨by decide, by decide,
   @claim_C3 Nat 2 (by decide) false [10, 20, 30] Mem.empty 4 (by decide)⟩

/-- Witness for C4 at `C = 1`, one item in each arena. -/
theorem claim_C4_witness :
    1 ≤ 1 ∧ ([10] : List Nat) ≠ [] ∧ ([20] : List Nat) ≠ [] ∧
    (1 : Nat) < 2 ∧
    ((∀ (a : Arena) (pos : Position) (mm : Mem Nat),
      (iterPtrAt a pos mm).isSome = true ↔
        (pos.rc = none ∨ ∃ r, pos.rc = some r ∧ a.rc = some r)) ∧
    ∃ ps a1 m1,
      allocAll 1 true [10] (Arena.new 1) (Mem.empty : Mem Nat) =
        some (ps, a1, m1) ∧
      ∀ pos : Position, pos.rc = a1.rc →
        (iterPtrAt a1 pos m1).isSome = true ∧
        (∀ ps' b1 m2,
          allocAll 1 true [20] (Arena.new 1) m1 = some (ps', b1, m2) →
          iterPtrAt b1 pos m2 = none) ∧
        (∀ a2 mf, (arenaDrop 1 2 a1 m1).2 = (a2, mf) →
          ∀ ps2 a3 m3, allocAll 1 true [20] a2 mf = some (ps2, a3, m3) →
          iterPtrAt a3 pos m3 = none)) :=
  ⟨by decide, by decide, by decide, by decide,
   @claim_C4 Nat 1 (by decide) [10] [20] (by decide) (by decide)
     Mem.empty 2 (by decide)⟩

/-- Witness for C5 at `C = 2`, three items, snapshot after two, one more
    item allocated. -/
theorem claim_C5_witness :
    1 ≤ 2 ∧ (2 : Nat) ≤ 3 ∧ (4 : Nat) < 5 ∧
    ∃ ps a1 m1 itk ps' a2 m2 it' res itf mf,
      allocAll 2 true [10, 20, 30] (Arena.new 2) (Mem.empty : Mem Nat) =
        some (ps, a1, m1) ∧
      iterRun 2 false 2 m1 (arenaIter a1) =
        ((ps.zip ([10, 20, 30].map some)).take 2, itk, m1) ∧
      allocAll 2 true [40] a1 m1 = some (ps', a2, m2) ∧
      iterPtrAt a2 itk.asPosition m2 = some it' ∧
      iterRun 2 false 5 m2 it' = (res, itf, mf) ∧
      res = ((ps ++ ps').zip (([10, 20, 30] ++ [40]).map some)).drop 2 ∧
      res.length = 2 :=
  ⟨by decide, by decide, by decide,
   @claim_C5 Nat 2 (by decide) [10, 20, 30] [40] 2 (by decide)
     Mem.empty 5 (by decide)⟩

/-- Witness for C6: the spec's own scenario — capacity 2, values
    `[1, 2, 3, 4, 5]`, which takes exactly `ceil(5/2) = 3` chunks. -/
theorem claim_C6_witness :
    1 ≤ 2 ∧
    ∃ ps a1 m1 cids1 gs1,
      allocAll 2 false [1, 2, 3, 4, 5] (Arena.new 2)
        (Mem.empty : Mem Nat) = some (ps, a1, m1) ∧
      RepW 2 a1 m1 [1, 2, 3, 4, 5] cids1 gs1 ∧
      cids1.length = ceilDiv 5 2 ∧
      m1.chunks.length = (Mem.empty : Mem Nat).chunks.length + ceilDiv 5 2 :=
  ⟨by decide, @claim_C6 Nat 2 (by decide) false [1, 2, 3, 4, 5] Mem.empty⟩

/-- Witness for C7's amended invariant at `C = 1`. -/
theorem claim_C7_witness :
    1 ≤ 1 ∧
    (TailInv 1 (Arena.new 1) ∧
    (∀ (sp ok : Bool) (a : Arena) (m : Mem Nat) (v : Nat), TailInv 1 a →
      (∀ p a1 m1, tryAllocPtr 1 sp ok a m v = .ok p a1 m1 → TailInv 1 a1) ∧
      (∀ a1 m1, tryAllocPtr 1 sp ok a m v = .fail a1 m1 → TailInv 1 a1)) ∧
    (∀ (fuel : Nat) (a : Arena) (m : Mem Nat), TailInv 1 a →
      TailInv 1 (arenaDrop 1 fuel a m).2.1) ∧
    (∀ (a : Arena) (m : Mem Nat) (xs : List Nat) (cids : List Nat)
      (gs : List (List Nat)), RepW 1 a m xs cids gs →
      (∀ (i : Nat) (g : List Nat), i + 1 < gs.length → gs[i]? = some g →
        g.length = 1) ∧ TailInv 1 a)) :=
  ⟨by decide, @claim_C7 Nat 1 (by decide)⟩

/-- Witness for C8 at `C = 2`, three items, abandoned after one yield. -/
theorem claim_C8_witness :
    1 ≤ 2 ∧ (1 : Nat) ≤ 3 ∧ (2 : Nat) < 4 ∧
    ∃ ps a1 m1 cids1 itj mj itf,
      allocAll 2 false [10, 20, 30] (Arena.new 2) (Mem.empty : Mem Nat) =
        some (ps, a1, m1) ∧
      iterRun 2 true 1 m1 (arenaIter a1) =
        ((ps.zip ([10, 20, 30].map some)).take 1, itj, mj) ∧
      iterRun 2 true 4 mj itj =
        ((ps.zip ([10, 20, 30].map some)).drop 1, itf, m1.freeAll cids1) ∧
      (∀ c ∈ cids1, (m1.freeAll cids1).getChunk c = none) ∧
      ps.Nodup :=
  ⟨by decide, by decide, by decide,
   @claim_C8 Nat 2 (by decide) [10, 20, 30] 1 (by decide) Mem.empty 4
     (by decide)⟩
